import Mathlib

/-!
Verification development for the PaleoCore client-side data logic.

The development shallow-embeds the data-transformation code of the
repository: JavaScript values appearing in data points are modelled by
`JSVal` (finite numbers as rationals, `NaN`, strings, `null`; `undefined`
is modelled by `Option.none` at the field level), and a data point is a
finite mapping from the recognised field names to optional values.
Array sorting (`Array.prototype.sort`, which is stable, so its output is
determined by the comparison key) is modelled by `List.insertionSort`.
-/

namespace PaleoCore

/-- Model of a JavaScript value stored in a data-point field: a finite
number (as a rational), `NaN` (any non-finite number), a string, or
`null`.  An absent (`undefined`) field is `none` at the use site. -/
inductive JSVal where
  | num (q : ℚ)
  | nan
  | str (s : String)
  | null
  deriving DecidableEq

/-- Enumeration of the recognised data-point field names: the `subsection`
natural key, `depth`, the calibrated `age`, and the ten proxy keys that
`calculateAveragesFromDataPoints` enumerates. -/
inductive Field where
  | subsection
  | depth
  | age
  | delta18O
  | delta13C
  | mgCaRatio
  | tex86
  | alkenoneSST
  | calculatedSST
  | baCa
  | srCa
  | cdCa
  | radiocarbonDate
  deriving DecidableEq, Fintype

/-- Model of the application `DataPoint` object: a mapping from field
names to optional JavaScript values (`none` = the field is absent). -/
abbrev DataPoint := Field → Option JSVal

/-- Model of the application `LabAnalysis` object: for each proxy key,
optionally its averaged value (`none` = key absent from the mapping). -/
abbrev LabAnalysis := Field → Option ℚ

/-- Data point with no fields (the empty object). -/
def emptyPoint : DataPoint := fun _ => none

/-- The ten proxy keys enumerated in `calculateAveragesFromDataPoints`
(`labAnalysisKeys` in `DataInputManager.tsx` and `CoreDashboard.tsx`). -/
def labAnalysisKeys : List Field :=
  [Field.delta18O, Field.delta13C, Field.mgCaRatio, Field.tex86,
   Field.alkenoneSST, Field.calculatedSST, Field.baCa, Field.srCa,
   Field.cdCa, Field.radiocarbonDate]

/-- Running sums and counts dictionaries used by
`calculateAveragesFromDataPoints`. -/
structure Tally where
  sums : Field → ℚ
  counts : Field → ℕ

/-- Finite numeric value of field `key` of point `p`, when present:
mirrors the test `typeof value === 'number' && isFinite(value)`. -/
def fv (p : DataPoint) (key : Field) : Option ℚ :=
  match p key with
  | some (JSVal.num q) => some q
  | _ => none

/-- Inner body of the accumulation loop of
`calculateAveragesFromDataPoints`: for one point and one key, add the
value to the sums and counts dictionaries when it is a finite number. -/
def tallyField (p : DataPoint) (t : Tally) (key : Field) : Tally :=
  match p key with
  | some (JSVal.num q) =>
      ⟨Function.update t.sums key (t.sums key + q),
       Function.update t.counts key (t.counts key + 1)⟩
  | _ => t

/-- Accumulation of one data point over all of `labAnalysisKeys`. -/
def tallyPoint (t : Tally) (p : DataPoint) : Tally :=
  labAnalysisKeys.foldl (tallyField p) t

/-- Embedding of `calculateAveragesFromDataPoints`
(`src/components/DataInputManager.tsx`, lines 9-40; the identical copy
in `CoreDashboard.tsx`, lines 21-52): empty input yields the empty
mapping; otherwise each enumerated key whose count of finite numeric
contributions is positive is mapped to sum divided by count. -/
def calculateAveragesFromDataPoints (dataPoints : List DataPoint) : LabAnalysis :=
  if dataPoints.isEmpty then fun _ => none
  else
    let t := dataPoints.foldl tallyPoint ⟨fun _ => 0, fun _ => 0⟩
    fun key =>
      if key ∈ labAnalysisKeys then
        if 0 < t.counts key then some (t.sums key / (t.counts key : ℚ)) else none
      else none

/-- Specification-side view for C1: the list of finite numeric values
carried by the points at a given key, in order. -/
def finiteValuesAt (dataPoints : List DataPoint) (key : Field) : List ℚ :=
  dataPoints.filterMap (fun p => fv p key)

theorem labAnalysisKeys_nodup : labAnalysisKeys.Nodup := by decide

theorem tallyField_sums (p : DataPoint) (t : Tally) (a k : Field) :
    (tallyField p t a).sums k =
      if k = a then t.sums k + (fv p k).getD 0 else t.sums k := by
  rcases eq_or_ne k a with rfl | hk
  · unfold tallyField fv
    rcases hpa : p k with _ | v
    · simp [hpa]
    · rcases v with q | _ | s | _ <;> simp [hpa, Function.update_apply]
  · unfold tallyField
    rcases hpa : p a with _ | v
    · simp [hk]
    · rcases v with q | _ | s | _ <;> simp [hk, Function.update_apply]

theorem tallyField_counts (p : DataPoint) (t : Tally) (a k : Field) :
    (tallyField p t a).counts k =
      if k = a ∧ (fv p k).isSome then t.counts k + 1 else t.counts k := by
  rcases eq_or_ne k a with rfl | hk
  · unfold tallyField fv
    rcases hpa : p k with _ | v
    · simp [hpa]
    · rcases v with q | _ | s | _ <;> simp [hpa, Function.update_apply]
  · unfold tallyField
    rcases hpa : p a with _ | v
    · simp [hk]
    · rcases v with q | _ | s | _ <;> simp [hk, Function.update_apply]

theorem foldl_tallyField (p : DataPoint) (k : Field) :
    ∀ (l : List Field), l.Nodup → ∀ (t : Tally),
    ((l.foldl (tallyField p) t).sums k =
        t.sums k + (if k ∈ l then (fv p k).getD 0 else 0)) ∧
    ((l.foldl (tallyField p) t).counts k =
        t.counts k + (if k ∈ l ∧ (fv p k).isSome then 1 else 0)) := by
  intro l
  induction l with
  | nil => intro _ t; simp
  | cons a l ih =>
    intro hl t
    rcases List.nodup_cons.mp hl with ⟨ha, hl'⟩
    obtain ⟨hs, hc⟩ := ih hl' (tallyField p t a)
    constructor
    · rw [List.foldl_cons, hs, tallyField_sums]
      rcases eq_or_ne k a with rfl | hk
      · have hkl : k ∉ l := ha
        simp [hkl]
      · simp [hk, List.mem_cons]
    · rw [List.foldl_cons, hc, tallyField_counts]
      rcases eq_or_ne k a with rfl | hk
      · have hkl : k ∉ l := ha
        by_cases hv : (fv p k).isSome
        · simp [hkl, hv]
        · simp [hkl, hv]
      · simp [hk, List.mem_cons]

theorem tallyPoint_sums (t : Tally) (p : DataPoint) (k : Field) :
    (tallyPoint t p).sums k =
      t.sums k + (if k ∈ labAnalysisKeys then (fv p k).getD 0 else 0) :=
  (foldl_tallyField p k labAnalysisKeys labAnalysisKeys_nodup t).1

theorem tallyPoint_counts (t : Tally) (p : DataPoint) (k : Field) :
    (tallyPoint t p).counts k =
      t.counts k + (if k ∈ labAnalysisKeys ∧ (fv p k).isSome then 1 else 0) :=
  (foldl_tallyField p k labAnalysisKeys labAnalysisKeys_nodup t).2

theorem foldl_tallyPoint (dps : List DataPoint) (t : Tally) (k : Field) :
    ((dps.foldl tallyPoint t).sums k =
        t.sums k + (if k ∈ labAnalysisKeys then (finiteValuesAt dps k).sum else 0)) ∧
    ((dps.foldl tallyPoint t).counts k =
        t.counts k +
          (if k ∈ labAnalysisKeys then (finiteValuesAt dps k).length else 0)) := by
  induction dps generalizing t with
  | nil => simp [finiteValuesAt]
  | cons p dps ih =>
    rcases ih (tallyPoint t p) with ⟨hs, hc⟩
    have hfc : finiteValuesAt (p :: dps) k =
        match fv p k with
        | some q => q :: finiteValuesAt dps k
        | none => finiteValuesAt dps k := by
      simp [finiteValuesAt, List.filterMap_cons]
      rcases fv p k with _ | q <;> simp
    constructor
    · rw [List.foldl_cons, hs, tallyPoint_sums, hfc]
      rcases hv : fv p k with _ | q <;>
        by_cases hm : k ∈ labAnalysisKeys <;> simp [hm, hv] <;> ring
    · rw [List.foldl_cons, hc, tallyPoint_counts, hfc]
      rcases hv : fv p k with _ | q <;>
        by_cases hm : k ∈ labAnalysisKeys <;> simp [hm, hv] <;> omega

theorem calcAverages_apply (dps : List DataPoint) (key : Field) (h : dps ≠ []) :
    calculateAveragesFromDataPoints dps key =
      (if key ∈ labAnalysisKeys then
        if 0 < (dps.foldl tallyPoint ⟨fun _ => 0, fun _ => 0⟩).counts key then
          some ((dps.foldl tallyPoint ⟨fun _ => 0, fun _ => 0⟩).sums key /
            ((dps.foldl tallyPoint ⟨fun _ => 0, fun _ => 0⟩).counts key : ℚ))
        else none
      else none) := by
  have hE : dps.isEmpty = false := by
    cases dps with
    | nil => exact absurd rfl h
    | cons a l => rfl
  unfold calculateAveragesFromDataPoints
  rw [hE]
  simp only [Bool.false_eq_true, if_false]

/-- C1: for every data-point sequence, `calculateAveragesFromDataPoints`
contains each of the ten enumerated proxy keys iff at least one point
carries a finite numeric value for it, and maps it to the arithmetic
mean of exactly those finite numeric values; the empty sequence yields
the empty mapping (every key absent). -/
theorem C1_average_computer (dataPoints : List DataPoint) (key : Field) :
    calculateAveragesFromDataPoints dataPoints key =
      (if key ∈ labAnalysisKeys ∧ finiteValuesAt dataPoints key ≠ [] then
        some ((finiteValuesAt dataPoints key).sum /
          ((finiteValuesAt dataPoints key).length : ℚ))
      else none) := by
  rcases hdp : dataPoints with _ | ⟨p, dps⟩
  · simp [calculateAveragesFromDataPoints, finiteValuesAt]
  · rw [calcAverages_apply (p :: dps) key (by simp)]
    obtain ⟨hs, hc⟩ := foldl_tallyPoint (p :: dps) ⟨fun _ => 0, fun _ => 0⟩ key
    by_cases hm : key ∈ labAnalysisKeys
    · simp only [hm, if_true, true_and]
      rw [hs, hc]
      simp only [hm, if_true]
      rcases hfv : finiteValuesAt (p :: dps) key with _ | ⟨q, qs⟩
      · simp
      · simp
    · simp [hm]

/-! ### JavaScript helpers: truthiness, sort keys, object spread -/

/-- JavaScript truthiness of an optional field value: `undefined`,
`null`, `NaN`, `0` and the empty string are falsy. -/
def jsTruthy : Option JSVal → Bool
  | some (JSVal.num q) => q != 0
  | some (JSVal.str s) => s != ""
  | _ => false

/-- Sort key used by `(a, b) => (a.depth || 0) - (b.depth || 0)`: a
falsy depth (absent, `null`, `NaN`, `0` or the empty string) is
replaced by `0` before the subtraction; a number keeps its value; a
truthy (non-empty) string is coerced by the subtraction with the
string-to-number coercion `toNum` (JavaScript `ToNumber`, a built-in
passed as a parameter; `none` = `NaN`). -/
def depthKey (toNum : String → Option ℚ) (p : DataPoint) : Option ℚ :=
  match p Field.depth with
  | some (JSVal.num q) => some q
  | some (JSVal.str s) => if s = "" then some 0 else toNum s
  | _ => some 0

/-- Sort key used by
`(a, b) => ((a.age as number) || 0) - ((b.age as number) || 0)` (the
`as number` cast is erased at runtime), with the same coercions as the
depth key. -/
def ageKey (toNum : String → Option ℚ) (p : DataPoint) : Option ℚ :=
  match p Field.age with
  | some (JSVal.num q) => some q
  | some (JSVal.str s) => if s = "" then some 0 else toNum s
  | _ => some 0

/-- Order induced by a numeric comparator on optional keys: the
comparator returns `key a - key b`, and `Array.prototype.sort` treats a
`NaN` comparator value as `+0` (a tie), so a `NaN` (`none`) key
compares as equal to everything. -/
def optLE (x y : Option ℚ) : Prop :=
  match x, y with
  | some a, some b => a ≤ b
  | _, _ => True

instance optLE.instDec : ∀ x y : Option ℚ, Decidable (optLE x y) := fun x y =>
  match x, y with
  | some a, some b => inferInstanceAs (Decidable (a ≤ b))
  | some _, none => inferInstanceAs (Decidable True)
  | none, _ => inferInstanceAs (Decidable True)

/-- Comparison relation of the depth sort. -/
def depthLE (toNum : String → Option ℚ) (a b : DataPoint) : Prop :=
  optLE (depthKey toNum a) (depthKey toNum b)

instance (toNum : String → Option ℚ) : DecidableRel (depthLE toNum) := fun a b =>
  optLE.instDec _ _

/-- Comparison relation of the age sort. -/
def ageLE (toNum : String → Option ℚ) (a b : DataPoint) : Prop :=
  optLE (ageKey toNum a) (ageKey toNum b)

instance (toNum : String → Option ℚ) : DecidableRel (ageLE toNum) := fun a b =>
  optLE.instDec _ _

theorem orderedInsert_congr {α : Type} (r1 r2 : α → α → Prop)
    [DecidableRel r1] [DecidableRel r2] (a : α) :
    ∀ l : List α, (∀ b ∈ l, r1 a b ↔ r2 a b) →
      l.orderedInsert r1 a = l.orderedInsert r2 a := by
  intro l
  induction l with
  | nil => intro _; rfl
  | cons b l ih =>
    intro h
    simp only [List.orderedInsert]
    by_cases hab : r1 a b
    · rw [if_pos hab, if_pos ((h b (List.mem_cons_self b l)).mp hab)]
    · rw [if_neg hab,
        if_neg (fun hh => hab ((h b (List.mem_cons_self b l)).mpr hh)),
        ih (fun x hx => h x (List.mem_cons_of_mem b hx))]

theorem insertionSort_congr {α : Type} (r1 r2 : α → α → Prop)
    [DecidableRel r1] [DecidableRel r2] :
    ∀ l : List α, (∀ a ∈ l, ∀ b ∈ l, r1 a b ↔ r2 a b) →
      l.insertionSort r1 = l.insertionSort r2 := by
  intro l
  induction l with
  | nil => intro _; rfl
  | cons a l ih =>
    intro h
    simp only [List.insertionSort]
    rw [ih (fun x hx y hy =>
      h x (List.mem_cons_of_mem a hx) y (List.mem_cons_of_mem a hy))]
    exact orderedInsert_congr r1 r2 a (l.insertionSort r2) (fun b hb =>
      h a (List.mem_cons_self a l) b
        (List.mem_cons_of_mem a ((List.perm_insertionSort r2 l).mem_iff.mp hb)))

/-- On a list all of whose sort keys are defined (no `NaN` key reaches
the comparator), the insertion sort over the comparator order is
sorted: the `NaN` tie cases never arise, so the order behaves as the
total order on the rational keys. -/
theorem pairwise_insertionSort_optLE {α : Type} (f : α → Option ℚ)
    (r : α → α → Prop) [DecidableRel r]
    (hr : ∀ a b, r a b ↔ optLE (f a) (f b))
    (l : List α) (h : ∀ a ∈ l, (f a).isSome = true) :
    (l.insertionSort r).Pairwise r := by
  haveI : DecidableRel (fun a b : α => (f a).getD 0 ≤ (f b).getD 0) := fun a b =>
    inferInstanceAs (Decidable (_ ≤ _))
  haveI : IsTotal α (fun a b : α => (f a).getD 0 ≤ (f b).getD 0) :=
    ⟨fun a b => le_total _ _⟩
  haveI : IsTrans α (fun a b : α => (f a).getD 0 ≤ (f b).getD 0) :=
    ⟨fun a b c h1 h2 => le_trans h1 h2⟩
  have key : ∀ a ∈ l, ∀ b ∈ l, (r a b ↔ (f a).getD 0 ≤ (f b).getD 0) := by
    intro a ha b hb
    rw [hr]
    rcases hfa : f a with _ | x
    · have := h a ha
      rw [hfa] at this
      exact absurd this (by decide)
    · rcases hfb : f b with _ | y
      · have := h b hb
        rw [hfb] at this
        exact absurd this (by decide)
      · exact Iff.rfl
  rw [insertionSort_congr r (fun a b => (f a).getD 0 ≤ (f b).getD 0) l key]
  have hp := List.sorted_insertionSort (fun a b : α => (f a).getD 0 ≤ (f b).getD 0) l
  refine List.Pairwise.imp_of_mem ?_ hp
  intro a b ha hb hab
  exact (key a ((List.perm_insertionSort _ l).mem_iff.mp ha)
    b ((List.perm_insertionSort _ l).mem_iff.mp hb)).mpr hab

/-- Object spread `{...a, ...b}` on data points: fields present in `b`
overwrite, all other fields of `a` are preserved. -/
def shallowMerge (a b : DataPoint) : DataPoint := fun f =>
  match b f with
  | some v => some v
  | none => a f

theorem shallowMerge_empty (b : DataPoint) : shallowMerge emptyPoint b = b := by
  funext f
  unfold shallowMerge emptyPoint
  rcases b f with _ | v <;> rfl

theorem shallowMerge_apply_of_some (a b : DataPoint) (f : Field) (v : JSVal)
    (h : b f = some v) : shallowMerge a b f = some v := by
  unfold shallowMerge
  rw [h]

/-! ### JavaScript `Map` model

JavaScript `Map` objects preserve insertion order; `set` on a present
key replaces the value in place, `set` on a fresh key appends.  They are
modelled as association lists. -/

/-- `Map.prototype.set`: replace the binding of a present key in place,
append a binding for a fresh key.  (A JavaScript `Map` never holds two
bindings of one key, so first-match replacement is exact.) -/
def mapSet {κ α : Type} [DecidableEq κ] : List (κ × α) → κ → α → List (κ × α)
  | [], k, v => [(k, v)]
  | e :: m, k, v => if e.1 = k then (k, v) :: m else e :: mapSet m k v

/-- `Map.prototype.get` (`none` = `undefined`). -/
def mapGet {κ α : Type} [DecidableEq κ] : List (κ × α) → κ → Option α
  | [], _ => none
  | e :: m, k => if e.1 = k then some e.2 else mapGet m k

/-- Keys of a map, in order. -/
def keysOf {κ α : Type} (m : List (κ × α)) : List κ := m.map (fun e => e.1)

theorem mapGet_mapSet {κ α : Type} [DecidableEq κ] (m : List (κ × α)) (k k' : κ)
    (v : α) :
    mapGet (mapSet m k v) k' = if k' = k then some v else mapGet m k' := by
  induction m with
  | nil =>
    simp only [mapSet, mapGet]
    rcases eq_or_ne k' k with rfl | h
    · simp
    · rw [if_neg (fun hh : k = k' => h hh.symm), if_neg h]
  | cons e m ih =>
    simp only [mapSet]
    by_cases hek : e.1 = k
    · rw [if_pos hek]
      simp only [mapGet]
      rcases eq_or_ne k' k with rfl | h
      · simp [hek]
      · rw [if_neg (fun hh : k = k' => h hh.symm), if_neg h,
          if_neg (fun hh : e.1 = k' => h (hek ▸ hh).symm)]
    · rw [if_neg hek]
      simp only [mapGet]
      by_cases hek' : e.1 = k'
      · rw [if_pos hek', if_pos hek',
          if_neg (fun hh : k' = k => hek (hek' ▸ hh))]
      · rw [if_neg hek', if_neg hek', ih]

theorem mem_keysOf_cons {κ α : Type} (e : κ × α) (m : List (κ × α)) (k : κ) :
    k ∈ keysOf (e :: m) ↔ k = e.1 ∨ k ∈ keysOf m := by
  simp only [keysOf, List.map_cons, List.mem_cons]

theorem keysOf_mapSet {κ α : Type} [DecidableEq κ] (m : List (κ × α)) (k : κ)
    (v : α) :
    keysOf (mapSet m k v) =
      if k ∈ keysOf m then keysOf m else keysOf m ++ [k] := by
  induction m with
  | nil => simp [mapSet, keysOf]
  | cons e m ih =>
    simp only [mapSet]
    by_cases hek : e.1 = k
    · rw [if_pos hek]
      have : k ∈ keysOf (e :: m) := (mem_keysOf_cons e m k).mpr (Or.inl hek.symm)
      rw [if_pos this]
      have : keysOf ((k, v) :: m) = k :: keysOf m := rfl
      rw [this]
      have : keysOf (e :: m) = e.1 :: keysOf m := rfl
      rw [this, hek]
    · rw [if_neg hek]
      have hcons : keysOf (e :: mapSet m k v) = e.1 :: keysOf (mapSet m k v) := rfl
      rw [hcons, ih]
      by_cases hmem : k ∈ keysOf m
      · rw [if_pos hmem, if_pos ((mem_keysOf_cons e m k).mpr (Or.inr hmem))]
        rfl
      · have hne : k ∉ keysOf (e :: m) := by
          rw [mem_keysOf_cons]
          rintro (h | h)
          · exact hek h.symm
          · exact hmem h
        rw [if_neg hmem, if_neg hne]
        rfl

theorem mapGet_eq_none_iff {κ α : Type} [DecidableEq κ] (m : List (κ × α)) (k : κ) :
    mapGet m k = none ↔ k ∉ keysOf m := by
  induction m with
  | nil => simp [mapGet, keysOf]
  | cons e m ih =>
    simp only [mapGet, keysOf, List.map_cons, List.mem_cons]
    by_cases hek : e.1 = k
    · simp [hek]
    · rw [if_neg hek]
      simp only [keysOf] at ih
      rw [ih]
      constructor
      · rintro h (h2 | h2)
        · exact hek h2.symm
        · exact h h2
      · intro h h2
        exact h (Or.inr h2)

theorem mapGet_eq_some_mem {κ α : Type} [DecidableEq κ] (m : List (κ × α)) (k : κ)
    (v : α) (h : mapGet m k = some v) : (k, v) ∈ m := by
  induction m with
  | nil => simp [mapGet] at h
  | cons e m ih =>
    simp only [mapGet] at h
    by_cases hek : e.1 = k
    · rw [if_pos hek] at h
      rcases e with ⟨ek, ev⟩
      simp only at hek
      simp only [Option.some_inj] at h
      rw [← hek, ← h]
      exact List.mem_cons_self _ _
    · rw [if_neg hek] at h
      exact List.mem_cons_of_mem e (ih h)

theorem mapSet_of_not_mem_keys {κ α : Type} [DecidableEq κ] (m : List (κ × α))
    (k : κ) (v : α) (h : k ∉ keysOf m) : mapSet m k v = m ++ [(k, v)] := by
  induction m with
  | nil => rfl
  | cons e m ih =>
    have h1 : e.1 ≠ k := by
      intro hh
      exact h (by simp [keysOf, hh.symm])
    have h2 : k ∉ keysOf m := fun hh => h (by simp [keysOf] at hh ⊢; tauto)
    simp only [mapSet, if_neg h1, ih h2, List.cons_append]

theorem mapSet_of_mem_keys_nodup {κ α : Type} [DecidableEq κ] (m : List (κ × α))
    (k : κ) (v : α) (hnd : (keysOf m).Nodup) (h : k ∈ keysOf m) :
    mapSet m k v = m.map (fun e => if e.1 = k then (k, v) else e) := by
  induction m with
  | nil => simp [keysOf] at h
  | cons e m ih =>
    have hndc : (keysOf (e :: m)) = e.1 :: keysOf m := rfl
    rw [hndc] at hnd
    have hnd' : (keysOf m).Nodup := (List.nodup_cons.mp hnd).2
    by_cases hek : e.1 = k
    · have hkm : k ∉ keysOf m := by
        have := (List.nodup_cons.mp hnd).1
        rw [← hek]
        exact this
      have hmap : m.map (fun e => if e.1 = k then (k, v) else e) = m.map id := by
        apply List.map_congr_left
        intro a ha
        have : a.1 ≠ k := by
          intro hh
          exact hkm (hh ▸ List.mem_map_of_mem (fun e => e.1) ha)
        simp [this]
      rw [List.map_id] at hmap
      simp only [mapSet, if_pos hek, List.map_cons, if_pos hek, hmap]
    · have hkm : k ∈ keysOf m := by
        rcases (mem_keysOf_cons e m k).mp h with h1 | h1
        · exact absurd h1.symm hek
        · exact h1
      simp only [mapSet, if_neg hek, List.map_cons, if_neg hek, ih hnd' hkm]

/-! ### Sections and the remote-store load path -/

/-- Model of the application `Section`, restricted to the fields the
verified operations read or write: the identifier, the data-point
series and the derived lab-analysis summary. -/
structure Section where
  id : String
  dataPoints : List DataPoint
  labAnalysis : LabAnalysis

/-- Model of a stored `sections` row, restricted to the corresponding
columns: `data_points` (`none` = SQL `null`) and `lab_analysis`
(`none` = SQL `null`; a present mapping is arbitrary, the store does
not enforce consistency with `data_points`). -/
structure SectionRow where
  id : String
  data_points : Option (List DataPoint)
  lab_analysis : Option LabAnalysis

/-- Embedding of the data-point and lab-analysis part of
`dbSectionToAppSection` (`src/services/coreService.ts`, lines 32-65):
each stored point is spread with
`subsection: dp.subsection || 'Subsection (index+1)'`, and
`lab_analysis` is taken over as-is. -/
def dbSectionToAppSection (r : SectionRow) : Section :=
  { id := r.id
    dataPoints := (r.data_points.getD []).enum.map (fun ir =>
      Function.update ir.2 Field.subsection
        (if jsTruthy (ir.2 Field.subsection) then ir.2 Field.subsection
         else some (JSVal.str ("Subsection " ++ Nat.repr (ir.1 + 1)))))
    labAnalysis := r.lab_analysis.getD (fun _ => none) }

/-- Embedding of the per-section recomputation step of `fetchSections`
(`src/components/CoreDashboard.tsx`, lines 113-119): recompute
`labAnalysis` only when the fetched section has at least one data
point. -/
def recomputeOnFetch (s : Section) : Section :=
  if s.dataPoints.length > 0 then
    { s with labAnalysis := calculateAveragesFromDataPoints s.dataPoints }
  else s

/-- Load path for sections: `fetchSectionsForCore` maps rows through
`dbSectionToAppSection`, and `fetchSections` recomputes averages. -/
def loadSections (rows : List SectionRow) : List Section :=
  (rows.map dbSectionToAppSection).map recomputeOnFetch

/-! ### Manual data-point entry -/

/-- Keys of the manual-entry form state (`initialFormState` in
`DataInputManager.tsx`), in object insertion order. -/
def formFields : List Field :=
  [Field.subsection, Field.depth, Field.delta18O, Field.delta13C,
   Field.mgCaRatio, Field.tex86, Field.alkenoneSST, Field.baCa,
   Field.srCa, Field.cdCa, Field.radiocarbonDate]

/-- The form-reading loop of `handleAddDataPoint`: builds
`newPointData` (starting from `{subsection: subsectionId}`) and the
`hasValue` flag by parsing every non-empty non-subsection form field
with `parseFloat` and keeping the values that are not `NaN`. -/
def manualEntryAcc (pf : String → Option ℚ) (form : Field → String)
    (subsectionId : String) : DataPoint × Bool :=
  formFields.foldl
    (fun (acc : DataPoint × Bool) key =>
      if key ≠ Field.subsection ∧ form key ≠ "" then
        match pf (form key) with
        | some q => (Function.update acc.1 key (some (JSVal.num q)), true)
        | none => acc
      else acc)
    (Function.update emptyPoint Field.subsection (some (JSVal.str subsectionId)),
     false)

/-- The series update of `handleAddDataPoint`: a point whose
`subsection` equals the submitted identifier is spread with the new
data; otherwise the new point is appended. -/
def mergeManualPoint (dataPoints : List DataPoint) (subsectionId : String)
    (newPointData : DataPoint) : List DataPoint :=
  match dataPoints.findIdx?
      (fun dp => dp Field.subsection = some (JSVal.str subsectionId)) with
  | some i =>
      dataPoints.set i
        (shallowMerge ((dataPoints.get? i).getD emptyPoint) newPointData)
  | none => dataPoints ++ [newPointData]

/-- Embedding of `handleAddDataPoint` (`src/components/DataInputManager.tsx`,
lines 88-137).  `parseFloat` is a JavaScript built-in and is passed as a
parameter `pf` (`none` = `NaN`; finite results are modelled as
rationals).  The result is `none` when the submission is rejected
(no state mutation) and `some` of the updated section otherwise. -/
def handleAddDataPoint (toNum : String → Option ℚ) (pf : String → Option ℚ)
    (form : Field → String) (s : Section) : Option Section :=
  if (form Field.subsection).trim = "" then none
  else if (manualEntryAcc pf form ((form Field.subsection).trim)).2 = false then
    none
  else
    some { s with
            dataPoints :=
              (mergeManualPoint s.dataPoints ((form Field.subsection).trim)
                (manualEntryAcc pf form ((form Field.subsection).trim)).1).insertionSort
                (depthLE toNum)
            labAnalysis := calculateAveragesFromDataPoints
              ((mergeManualPoint s.dataPoints ((form Field.subsection).trim)
                (manualEntryAcc pf form ((form Field.subsection).trim)).1).insertionSort
                (depthLE toNum)) }

/-! ### Decimal numerals

The generated fallback keys of the bulk import interpolate natural
numbers into template strings, so their distinctness reduces to the
injectivity of the decimal numeral function `Nat.repr`. -/

/-- Decimal digit list of a natural number (reference function used to
reason about `Nat.toDigitsCore`). -/
def natDigits (n : ℕ) : List Char :=
  if n < 10 then [Nat.digitChar n]
  else natDigits (n / 10) ++ [Nat.digitChar (n % 10)]
termination_by n
decreasing_by exact Nat.div_lt_self (by omega) (by omega)

/-- Decoding of a decimal digit list. -/
def decodeDigits (cs : List Char) : ℕ :=
  cs.foldl (fun a c => 10 * a + (c.toNat - 48)) 0

theorem toDigitsCore_append (fuel : ℕ) :
    ∀ (n : ℕ) (ds : List Char),
      Nat.toDigitsCore 10 fuel n ds = Nat.toDigitsCore 10 fuel n [] ++ ds := by
  induction fuel with
  | zero => intro n ds; rfl
  | succ fuel ih =>
    intro n ds
    simp only [Nat.toDigitsCore]
    by_cases h : n / 10 = 0
    · rw [if_pos h, if_pos h]
      rfl
    · rw [if_neg h, if_neg h, ih (n / 10) (Nat.digitChar (n % 10) :: ds),
        ih (n / 10) [Nat.digitChar (n % 10)]]
      simp

theorem toDigitsCore_eq_natDigits (fuel : ℕ) :
    ∀ (n : ℕ), n < fuel → Nat.toDigitsCore 10 fuel n [] = natDigits n := by
  induction fuel with
  | zero => intro n h; omega
  | succ fuel ih =>
    intro n hn
    simp only [Nat.toDigitsCore]
    by_cases h : n / 10 = 0
    · have h10 : n < 10 := by omega
      rw [if_pos h, natDigits, if_pos h10, Nat.mod_eq_of_lt h10]
    · have h10 : ¬ n < 10 := by
        intro hlt
        exact h (Nat.div_eq_of_lt hlt)
      have hdiv : n / 10 < n := Nat.div_lt_self (by omega) (by omega)
      rw [if_neg h, toDigitsCore_append fuel (n / 10) [Nat.digitChar (n % 10)],
        ih (n / 10) (by omega)]
      conv_rhs => rw [natDigits]
      rw [if_neg h10]

theorem digitChar_toNat (d : ℕ) (h : d < 10) : (Nat.digitChar d).toNat - 48 = d := by
  interval_cases d <;> rfl

theorem decodeDigits_append_digit (cs : List Char) (c : Char) :
    decodeDigits (cs ++ [c]) = 10 * decodeDigits cs + (c.toNat - 48) := by
  simp [decodeDigits, List.foldl_append]

theorem decodeDigits_natDigits (n : ℕ) : decodeDigits (natDigits n) = n := by
  induction n using Nat.strong_induction_on with
  | _ n ih =>
    by_cases h : n < 10
    · rw [natDigits, if_pos h]
      simp [decodeDigits, digitChar_toNat n h]
    · rw [natDigits, if_neg h, decodeDigits_append_digit,
        ih (n / 10) (Nat.div_lt_self (by omega) (by omega)),
        digitChar_toNat (n % 10) (Nat.mod_lt _ (by omega))]
      omega

theorem natRepr_data (n : ℕ) : (Nat.repr n).data = natDigits n := by
  unfold Nat.repr Nat.toDigits
  rw [toDigitsCore_eq_natDigits (n + 1) n (Nat.lt_succ_self n)]
  rfl

theorem natRepr_injective : Function.Injective Nat.repr := by
  intro m n h
  have hd := congrArg String.data h
  rw [natRepr_data, natRepr_data] at hd
  have := congrArg decodeDigits hd
  rwa [decodeDigits_natDigits, decodeDigits_natDigits] at this

/-! ### Bulk-import reconciliation (`handleConfirmMapping`) -/

/-- Usable subsection key of a parsed row: mirrors the guard
`subsectionId && typeof subsectionId === 'string' && subsectionId.trim() !== ''`.
The returned key is the original, untrimmed string. -/
def usableKey (p : DataPoint) : Option String :=
  match p Field.subsection with
  | some (JSVal.str s) => if s ≠ "" ∧ s.trim ≠ "" then some s else none
  | _ => none

/-- Generated fallback key for an unkeyed imported row:
`Imported-(Date.now())-(index)`; the call time `Date.now()` is the
parameter `t`. -/
def genKey (t i : ℕ) : String :=
  "Imported-" ++ Nat.repr t ++ "-" ++ Nat.repr i

theorem genKey_inj (t : ℕ) {i j : ℕ} (h : genKey t i = genKey t j) : i = j := by
  have hd : ("Imported-".data ++ ((Nat.repr t).data ++ ("-".data ++ (Nat.repr i).data)))
      = ("Imported-".data ++ ((Nat.repr t).data ++ ("-".data ++ (Nat.repr j).data))) := by
    have h2 := congrArg String.data h
    simpa [genKey, String.data_append, List.append_assoc] using h2
  have h1 := List.append_cancel_left hd
  have h2 := List.append_cancel_left h1
  have h3 := List.append_cancel_left h2
  exact natRepr_injective (by
    apply congrArg List.asString at h3
    simpa [List.asString] using h3)

/-- One iteration of the reconciliation loop of `handleConfirmMapping`
(`src/components/DataInputManager.tsx`, lines 226-240): a row with a
usable key is shallow-merged over the current binding of that key
(`{...map.get(id), ...newPoint}`, spreading `undefined` when absent);
an unkeyed row is stored under the generated key with its `subsection`
set to that key.  `Map` keys are the raw JavaScript `subsection` values
(`Option JSVal`). -/
def mergeRowsStep (t : ℕ) (m : List (Option JSVal × DataPoint))
    (ir : ℕ × DataPoint) : List (Option JSVal × DataPoint) :=
  match usableKey ir.2 with
  | some sid =>
      mapSet m (some (JSVal.str sid))
        (shallowMerge ((mapGet m (some (JSVal.str sid))).getD emptyPoint) ir.2)
  | none =>
      let uniqueId := genKey t ir.1
      mapSet m (some (JSVal.str uniqueId))
        (Function.update ir.2 Field.subsection (some (JSVal.str uniqueId)))

/-- The initial map `new Map(section.dataPoints.map(p => [p.subsection, p]))`. -/
def initPointsMap (dataPoints : List DataPoint) : List (Option JSVal × DataPoint) :=
  dataPoints.foldl (fun m p => mapSet m (p Field.subsection) p) []

/-- Embedding of the merge phase of `handleConfirmMapping`
(`src/components/DataInputManager.tsx`, lines 222-242): parsed rows are
reconciled into the section map by `subsection` key (with generated
keys for unkeyed rows), and the resulting values are sorted ascending
by depth (missing depth sorts as `0`). -/
def handleConfirmMappingMerge (toNum : String → Option ℚ) (t : ℕ)
    (existing : List DataPoint) (rows : List DataPoint) : List DataPoint :=
  let m := rows.enum.foldl (mergeRowsStep t) (initPointsMap existing)
  (m.map (fun e => e.2)).insertionSort (depthLE toNum)

/-- Effective map key used when an indexed row is reconciled: its usable
`subsection` key, or the generated fallback key. -/
def effKey (t : ℕ) (ir : ℕ × DataPoint) : Option JSVal :=
  match usableKey ir.2 with
  | some s => some (JSVal.str s)
  | none => some (JSVal.str (genKey t ir.1))

/-- Value stored for an indexed row, given the previous binding of its
effective key (`none` = key absent). -/
def appliedRow (t : ℕ) (prev : Option DataPoint) (ir : ℕ × DataPoint) : DataPoint :=
  match usableKey ir.2 with
  | some _ => shallowMerge (prev.getD emptyPoint) ir.2
  | none => Function.update ir.2 Field.subsection (some (JSVal.str (genKey t ir.1)))

theorem mergeRowsStep_eq (t : ℕ) (m : List (Option JSVal × DataPoint))
    (ir : ℕ × DataPoint) :
    mergeRowsStep t m ir =
      mapSet m (effKey t ir) (appliedRow t (mapGet m (effKey t ir)) ir) := by
  unfold mergeRowsStep effKey appliedRow
  rcases h : usableKey ir.2 with _ | s <;> simp [h]

theorem mapGet_of_mem_nodup {κ α : Type} [DecidableEq κ] :
    ∀ (m : List (κ × α)), (keysOf m).Nodup → ∀ e ∈ m, mapGet m e.1 = some e.2 := by
  intro m
  induction m with
  | nil => intro _ e he; exact absurd he (List.not_mem_nil e)
  | cons a m ih =>
    intro hnd e he
    have hndc : keysOf (a :: m) = a.1 :: keysOf m := rfl
    rw [hndc] at hnd
    rcases List.mem_cons.mp he with rfl | he'
    · simp [mapGet]
    · have ha1 : a.1 ≠ e.1 := by
        intro hh
        exact (List.nodup_cons.mp hnd).1
          (hh ▸ List.mem_map_of_mem (fun e => e.1) he')
      simp only [mapGet, if_neg ha1]
      exact ih (List.nodup_cons.mp hnd).2 e he'

theorem keysOf_replace {κ α : Type} [DecidableEq κ] (m : List (κ × α)) (k : κ)
    (v : α) :
    keysOf (m.map (fun e => if e.1 = k then (k, v) else e)) = keysOf m := by
  unfold keysOf
  rw [List.map_map]
  apply List.map_congr_left
  intro e _
  by_cases hek : e.1 = k
  · simp [hek]
  · simp [hek]

theorem foldl_mapSet_fresh {κ α : Type} [DecidableEq κ] (key : α → κ) :
    ∀ (l : List α) (m : List (κ × α)),
      (keysOf m ++ l.map key).Nodup →
      l.foldl (fun m p => mapSet m (key p) p) m =
        m ++ l.map (fun p => (key p, p)) := by
  intro l
  induction l with
  | nil => intro m _; simp
  | cons p l ih =>
    intro m hnd
    have hfresh : key p ∉ keysOf m := by
      intro hmem
      rcases List.nodup_append.mp hnd with ⟨_, _, hdisj⟩
      exact hdisj hmem (by simp)
    rw [List.foldl_cons, mapSet_of_not_mem_keys m (key p) p hfresh,
      ih (m ++ [(key p, p)]) (by
        have : keysOf (m ++ [(key p, p)]) ++ l.map key =
            keysOf m ++ (key p :: l.map key) := by
          simp [keysOf]
        rw [this]
        simpa using hnd)]
    simp

theorem initPointsMap_eq (dataPoints : List DataPoint)
    (h : (dataPoints.map (fun p => p Field.subsection)).Nodup) :
    initPointsMap dataPoints =
      dataPoints.map (fun p => (p Field.subsection, p)) := by
  unfold initPointsMap
  rw [foldl_mapSet_fresh (fun p => p Field.subsection) dataPoints [] (by
    simpa [keysOf] using h)]
  simp

theorem keysOf_initPointsMap (dataPoints : List DataPoint)
    (h : (dataPoints.map (fun p => p Field.subsection)).Nodup) :
    keysOf (initPointsMap dataPoints) =
      dataPoints.map (fun p => p Field.subsection) := by
  rw [initPointsMap_eq dataPoints h]
  simp [keysOf, List.map_map]

theorem usableKey_some (r : DataPoint) (s : String) (h : usableKey r = some s) :
    r Field.subsection = some (JSVal.str s) := by
  unfold usableKey at h
  split at h
  next s' heq =>
    split at h
    · rw [heq, Option.some_inj.mp h]
    · exact absurd h (by simp)
  next => exact absurd h (by simp)

/-- Specification-side matcher for C3: a batch row matches an existing
point when its usable key equals the point's `subsection` value. -/
def rowMatches (p r : DataPoint) : Bool :=
  match usableKey r with
  | some s => decide (some (JSVal.str s) = p Field.subsection)
  | none => false

/-- The entries the reconciliation fold appends for the effective keys
that are not keys of the initial map: one entry per distinct fresh key,
placed at the key's first occurrence, holding the fold of all later
rows with the same key over the first one (later duplicate-key rows
are folded into the same entry, not appended again). -/
def newTail (t : ℕ) : List (ℕ × DataPoint) → List (Option JSVal) →
    List (Option JSVal × DataPoint)
  | [], _ => []
  | ir :: irows, seen =>
    if effKey t ir ∈ seen then newTail t irows seen
    else
      (effKey t ir,
        (irows.filter (fun ir2 => decide (effKey t ir2 = effKey t ir))).foldl
          (fun p ir2 => appliedRow t (some p) ir2) (appliedRow t none ir))
      :: newTail t irows (effKey t ir :: seen)

theorem newTail_congr_seen (t : ℕ) :
    ∀ (irows : List (ℕ × DataPoint)) (s1 s2 : List (Option JSVal)),
      (∀ k, k ∈ s1 ↔ k ∈ s2) → newTail t irows s1 = newTail t irows s2 := by
  intro irows
  induction irows with
  | nil => intro s1 s2 _; rfl
  | cons ir irows ih =>
    intro s1 s2 h
    simp only [newTail]
    by_cases hk : effKey t ir ∈ s1
    · rw [if_pos hk, if_pos ((h _).mp hk), ih s1 s2 h]
    · rw [if_neg hk, if_neg (fun hh => hk ((h _).mpr hh)),
        ih (effKey t ir :: s1) (effKey t ir :: s2) (fun k => by
          simp only [List.mem_cons]
          exact or_congr Iff.rfl (h k))]

theorem appliedRow_prev_empty (t : ℕ) (ir : ℕ × DataPoint) :
    appliedRow t (some emptyPoint) ir = appliedRow t none ir := by
  unfold appliedRow
  rcases usableKey ir.2 with _ | s <;> rfl

/-- General characterization of the reconciliation fold, valid for
batches with repeated keys: every initial entry is replaced in place by
the fold of all its matching rows, and the fresh keys contribute the
appended `newTail` entries. -/
theorem foldl_mergeRowsStep_dup (t : ℕ) :
    ∀ (irows : List (ℕ × DataPoint)) (m : List (Option JSVal × DataPoint)),
      (keysOf m).Nodup →
      irows.foldl (mergeRowsStep t) m =
        m.map (fun e => (e.1,
          (irows.filter (fun ir => decide (effKey t ir = e.1))).foldl
            (fun p ir => appliedRow t (some p) ir) e.2))
        ++ newTail t irows (keysOf m) := by
  intro irows
  induction irows with
  | nil =>
    intro m _
    simp [newTail]
  | cons ir irows ih =>
    intro m hnd
    rw [List.foldl_cons, mergeRowsStep_eq]
    by_cases hk : effKey t ir ∈ keysOf m
    · rcases List.mem_map.mp hk with ⟨e0, he0, hke⟩
      have hget : mapGet m (effKey t ir) = some e0.2 := by
        rw [← hke]
        exact mapGet_of_mem_nodup m hnd e0 he0
      rw [hget, mapSet_of_mem_keys_nodup m _ _ hnd hk]
      have hnd2 : (keysOf (m.map (fun e =>
          if e.1 = effKey t ir then
            (effKey t ir, appliedRow t (some e0.2) ir)
          else e))).Nodup := by
        rw [keysOf_replace]
        exact hnd
      rw [ih _ hnd2, keysOf_replace]
      have hnew : newTail t (ir :: irows) (keysOf m) =
          newTail t irows (keysOf m) := by
        simp only [newTail]
        rw [if_pos hk]
      rw [hnew]
      congr 1
      rw [List.map_map]
      apply List.map_congr_left
      intro e he
      by_cases hek : e.1 = effKey t ir
      · have he00 : e = e0 :=
          List.inj_on_of_nodup_map hnd he he0 (hek.trans hke.symm)
        subst he00
        simp only [Function.comp_apply, if_pos hek]
        rw [List.filter_cons_of_pos (by simpa using hek.symm),
          List.foldl_cons, hek]
      · simp only [Function.comp_apply, if_neg hek]
        rw [List.filter_cons_of_neg (by simpa using fun hh => hek hh.symm)]
    · have hget : mapGet m (effKey t ir) = none :=
        (mapGet_eq_none_iff _ _).mpr hk
      rw [hget, mapSet_of_not_mem_keys m _ _ hk]
      have hkeq : keysOf (m ++ [(effKey t ir, appliedRow t none ir)]) =
          keysOf m ++ [effKey t ir] := by
        simp [keysOf]
      have hnd2 : (keysOf (m ++ [(effKey t ir, appliedRow t none ir)])).Nodup := by
        rw [hkeq]
        refine List.Nodup.append hnd (List.nodup_singleton _) ?_
        intro k hk1 hk2
        rw [List.mem_singleton] at hk2
        exact hk (hk2 ▸ hk1)
      rw [ih _ hnd2, hkeq]
      have hseen : newTail t irows (keysOf m ++ [effKey t ir]) =
          newTail t irows (effKey t ir :: keysOf m) :=
        newTail_congr_seen t irows _ _ (fun k => by
          simp [List.mem_append, List.mem_cons, or_comm])
      have hnew : newTail t (ir :: irows) (keysOf m) =
          (effKey t ir,
            (irows.filter (fun ir2 => decide (effKey t ir2 = effKey t ir))).foldl
              (fun p ir2 => appliedRow t (some p) ir2) (appliedRow t none ir))
          :: newTail t irows (effKey t ir :: keysOf m) := by
        simp only [newTail]
        rw [if_neg hk]
      rw [hnew, hseen, List.map_append]
      have hmc : m.map (fun e => (e.1,
          ((ir :: irows).filter (fun ir2 => decide (effKey t ir2 = e.1))).foldl
            (fun p ir2 => appliedRow t (some p) ir2) e.2)) =
          m.map (fun e => (e.1,
          (irows.filter (fun ir2 => decide (effKey t ir2 = e.1))).foldl
            (fun p ir2 => appliedRow t (some p) ir2) e.2)) := by
        apply List.map_congr_left
        intro e he
        have hek : effKey t ir ≠ e.1 := by
          intro hh
          exact hk (hh ▸ List.mem_map_of_mem (fun e => e.1) he)
        rw [List.filter_cons_of_neg (by simpa using hek)]
      rw [hmc]
      simp

/-- First occurrences of the elements of `l` that are not in `seen`,
in order. -/
def firstOcc {κ : Type} [DecidableEq κ] : List κ → List κ → List κ
  | [], _ => []
  | k :: ks, seen =>
    if k ∈ seen then firstOcc ks seen else k :: firstOcc ks (k :: seen)

theorem mem_firstOcc {κ : Type} [DecidableEq κ] :
    ∀ (l seen : List κ) (k : κ), k ∈ firstOcc l seen ↔ k ∈ l ∧ k ∉ seen := by
  intro l
  induction l with
  | nil => intro seen k; simp [firstOcc]
  | cons k0 ks ih =>
    intro seen k
    simp only [firstOcc]
    by_cases h0 : k0 ∈ seen
    · rw [if_pos h0, ih]
      constructor
      · rintro ⟨hk, hns⟩
        exact ⟨List.mem_cons_of_mem k0 hk, hns⟩
      · rintro ⟨hk, hns⟩
        rcases List.mem_cons.mp hk with rfl | hk
        · exact absurd h0 hns
        · exact ⟨hk, hns⟩
    · rw [if_neg h0]
      constructor
      · intro hk
        rcases List.mem_cons.mp hk with rfl | hk
        · exact ⟨List.mem_cons_self _ _, h0⟩
        · rcases (ih _ k).mp hk with ⟨hk1, hk2⟩
          exact ⟨List.mem_cons_of_mem k0 hk1,
            fun hh => hk2 (List.mem_cons_of_mem k0 hh)⟩
      · rintro ⟨hk, hns⟩
        rcases List.mem_cons.mp hk with rfl | hk
        · exact List.mem_cons_self _ _
        · by_cases hkk : k = k0
          · subst hkk
            exact List.mem_cons_self _ _
          · refine List.mem_cons_of_mem k0 ((ih _ k).mpr ⟨hk, ?_⟩)
            simp only [List.mem_cons]
            rintro (h | h)
            · exact hkk h
            · exact hns h

theorem firstOcc_nodup {κ : Type} [DecidableEq κ] :
    ∀ (l seen : List κ), (firstOcc l seen).Nodup := by
  intro l
  induction l with
  | nil => intro seen; simp [firstOcc]
  | cons k0 ks ih =>
    intro seen
    simp only [firstOcc]
    by_cases h0 : k0 ∈ seen
    · rw [if_pos h0]
      exact ih seen
    · rw [if_neg h0]
      refine List.nodup_cons.mpr ⟨?_, ih _⟩
      intro hmem
      exact ((mem_firstOcc ks (k0 :: seen) k0).mp hmem).2 (List.mem_cons_self _ _)

/-- Closed form of `newTail`: one entry per first occurrence of a fresh
key, holding the fold of the key's whole row group over the empty
object (the first row of a group is spread over `undefined`, which is
the same as spreading it over the empty object). -/
theorem newTail_eq (t : ℕ) :
    ∀ (irows : List (ℕ × DataPoint)) (seen : List (Option JSVal)),
      newTail t irows seen =
        (firstOcc (irows.map (effKey t)) seen).map (fun k =>
          (k, (irows.filter (fun ir => decide (effKey t ir = k))).foldl
            (fun p ir => appliedRow t (some p) ir) emptyPoint)) := by
  intro irows
  induction irows with
  | nil => intro seen; rfl
  | cons ir irows ih =>
    intro seen
    simp only [newTail, List.map_cons, firstOcc]
    by_cases h0 : effKey t ir ∈ seen
    · rw [if_pos h0, if_pos h0, ih]
      apply List.map_congr_left
      intro k hk
      have hkne : effKey t ir ≠ k := by
        intro hh
        exact ((mem_firstOcc _ _ k).mp hk).2 (hh ▸ h0)
      rw [List.filter_cons_of_neg (by simpa using hkne)]
    · rw [if_neg h0, if_neg h0, List.map_cons]
      congr 1
      · rw [List.filter_cons_of_pos (by simp)]
        simp only [List.foldl_cons]
        rw [appliedRow_prev_empty]
      · rw [ih]
        apply List.map_congr_left
        intro k hk
        have hk2 := ((mem_firstOcc _ _ k).mp hk).2
        have hkne : effKey t ir ≠ k := by
          intro hh
          refine hk2 ?_
          rw [← hh]
          exact List.mem_cons_self _ _
        rw [List.filter_cons_of_neg (by simpa using hkne)]

/-- Folding the rows whose effective key is the `subsection` of an
existing point is folding its matching rows with the object spread:
the generated keys never match it, and a usable key matches exactly
when `rowMatches` holds. -/
theorem foldl_group_existing (t : ℕ) (p : DataPoint)
    (hp : ∀ i : ℕ, p Field.subsection ≠ some (JSVal.str (genKey t i))) :
    ∀ (rows : List DataPoint) (n : ℕ) (q : DataPoint),
      ((List.enumFrom n rows).filter
          (fun ir => decide (effKey t ir = p Field.subsection))).foldl
        (fun x ir => appliedRow t (some x) ir) q
      = (rows.filter (rowMatches p)).foldl shallowMerge q := by
  intro rows
  induction rows with
  | nil => intro n q; rfl
  | cons r rows ih =>
    intro n q
    rw [List.enumFrom_cons]
    rcases hu : usableKey r with _ | s
    · have heff : effKey t (n, r) = some (JSVal.str (genKey t n)) := by
        unfold effKey
        rw [hu]
      have hm : rowMatches p r = false := by
        unfold rowMatches
        rw [hu]
      rw [List.filter_cons_of_neg (by
          rw [heff]
          simp only [decide_eq_true_eq]
          exact fun hh => hp n hh.symm),
        List.filter_cons_of_neg (by simp [hm]),
        ih (n + 1) q]
    · have heff : effKey t (n, r) = some (JSVal.str s) := by
        unfold effKey
        rw [hu]
      have happ : ∀ x : DataPoint, appliedRow t (some x) (n, r) = shallowMerge x r := by
        intro x
        unfold appliedRow
        rw [hu]
        rfl
      by_cases hmatch : some (JSVal.str s) = p Field.subsection
      · have hm : rowMatches p r = true := by
          unfold rowMatches
          rw [hu]
          exact decide_eq_true hmatch
        rw [List.filter_cons_of_pos (by
            rw [heff]
            exact decide_eq_true hmatch),
          List.filter_cons_of_pos (by simp [hm])]
        simp only [List.foldl_cons]
        rw [happ q]
        exact ih (n + 1) (shallowMerge q r)
      · have hm : rowMatches p r = false := by
          unfold rowMatches
          rw [hu]
          exact decide_eq_false hmatch
        rw [List.filter_cons_of_neg (by
            rw [heff]
            simp only [decide_eq_true_eq]
            exact hmatch),
          List.filter_cons_of_neg (by simp [hm]),
          ih (n + 1) q]

/-- Folding the rows whose effective key is a (non-generated) usable
key is folding the rows carrying that usable key with the object
spread. -/
theorem foldl_group_usable (t : ℕ) (s : String)
    (hs : ∀ i : ℕ, s ≠ genKey t i) :
    ∀ (rows : List DataPoint) (n : ℕ) (q : DataPoint),
      ((List.enumFrom n rows).filter
          (fun ir => decide (effKey t ir = some (JSVal.str s)))).foldl
        (fun x ir => appliedRow t (some x) ir) q
      = (rows.filter (fun r => decide (usableKey r = some s))).foldl
          shallowMerge q := by
  intro rows
  induction rows with
  | nil => intro n q; rfl
  | cons r rows ih =>
    intro n q
    rw [List.enumFrom_cons]
    rcases hu : usableKey r with _ | s'
    · have heff : effKey t (n, r) = some (JSVal.str (genKey t n)) := by
        unfold effKey
        rw [hu]
      rw [List.filter_cons_of_neg (by
          rw [heff]
          simp only [decide_eq_true_eq, Option.some_inj, JSVal.str.injEq]
          exact fun hh => hs n hh.symm),
        List.filter_cons_of_neg (by simp [hu]),
        ih (n + 1) q]
    · have heff : effKey t (n, r) = some (JSVal.str s') := by
        unfold effKey
        rw [hu]
      have happ : ∀ x : DataPoint, appliedRow t (some x) (n, r) = shallowMerge x r := by
        intro x
        unfold appliedRow
        rw [hu]
        rfl
      by_cases hss : s' = s
      · subst hss
        rw [List.filter_cons_of_pos (by
            rw [heff]
            exact decide_eq_true rfl),
          List.filter_cons_of_pos (by simp [hu])]
        simp only [List.foldl_cons]
        rw [happ q]
        exact ih (n + 1) (shallowMerge q r)
      · rw [List.filter_cons_of_neg (by
            rw [heff]
            simp only [decide_eq_true_eq, Option.some_inj, JSVal.str.injEq]
            exact hss),
          List.filter_cons_of_neg (by simp [hu, hss]),
          ih (n + 1) q]

theorem filter_eq_singleton_of_nodup {α : Type} [DecidableEq α] :
    ∀ (l : List α), l.Nodup → ∀ a ∈ l,
      l.filter (fun x => decide (x = a)) = [a] := by
  intro l
  induction l with
  | nil => intro _ a ha; exact absurd ha (List.not_mem_nil a)
  | cons b l ih =>
    intro hnd a ha
    rcases List.mem_cons.mp ha with rfl | ha'
    · rw [List.filter_cons_of_pos (by simp)]
      have hnil : l.filter (fun x => decide (x = a)) = [] := by
        rw [List.filter_eq_nil_iff]
        intro x hx
        simp only [decide_eq_true_eq]
        intro hxa
        exact (List.nodup_cons.mp hnd).1 (hxa ▸ hx)
      rw [hnil]
    · have hba : b ≠ a := by
        intro hh
        exact (List.nodup_cons.mp hnd).1 (hh ▸ ha')
      rw [List.filter_cons_of_neg (by simp [hba]),
        ih (List.nodup_cons.mp hnd).2 a ha']

theorem depthKey_eq_of_field (toNum : String → Option ℚ) (a b : DataPoint)
    (h : a Field.depth = b Field.depth) : depthKey toNum a = depthKey toNum b := by
  unfold depthKey
  rw [h]

theorem depthKey_isSome_of_none (toNum : String → Option ℚ) (p : DataPoint)
    (h : p Field.depth = none) : (depthKey toNum p).isSome = true := by
  unfold depthKey
  rw [h]
  rfl

theorem shallowMerge_field (a b : DataPoint) (f : Field) :
    shallowMerge a b f = b f ∨ shallowMerge a b f = a f := by
  unfold shallowMerge
  rcases hb : b f with _ | v
  · exact Or.inr rfl
  · exact Or.inl rfl

theorem foldl_shallowMerge_field (f : Field) :
    ∀ (l : List DataPoint) (q : DataPoint),
      (l.foldl shallowMerge q) f = q f ∨
      ∃ r ∈ l, (l.foldl shallowMerge q) f = r f := by
  intro l
  induction l with
  | nil => intro q; exact Or.inl rfl
  | cons r l ih =>
    intro q
    rw [List.foldl_cons]
    rcases ih (shallowMerge q r) with h | ⟨r', hr', h⟩
    · rcases shallowMerge_field q r f with h2 | h2
      · exact Or.inr ⟨r, List.mem_cons_self r l, h.trans h2⟩
      · exact Or.inl (h.trans h2)
    · exact Or.inr ⟨r', List.mem_cons_of_mem r hr', h⟩

theorem appliedRow_field_depth (t : ℕ) (x : DataPoint) (ir : ℕ × DataPoint) :
    (appliedRow t (some x) ir) Field.depth = ir.2 Field.depth ∨
    (appliedRow t (some x) ir) Field.depth = x Field.depth := by
  unfold appliedRow
  rcases usableKey ir.2 with _ | s
  · exact Or.inl (Function.update_noteq (by decide) _ _)
  · exact shallowMerge_field x ir.2 Field.depth

theorem foldl_appliedRow_depth (t : ℕ) :
    ∀ (l : List (ℕ × DataPoint)) (q : DataPoint),
      (l.foldl (fun x ir => appliedRow t (some x) ir) q) Field.depth =
        q Field.depth ∨
      ∃ ir ∈ l, (l.foldl (fun x ir => appliedRow t (some x) ir) q) Field.depth =
        ir.2 Field.depth := by
  intro l
  induction l with
  | nil => intro q; exact Or.inl rfl
  | cons ir l ih =>
    intro q
    rw [List.foldl_cons]
    rcases ih (appliedRow t (some q) ir) with h | ⟨ir', hir', h⟩
    · rcases appliedRow_field_depth t q ir with h2 | h2
      · exact Or.inr ⟨ir, List.mem_cons_self ir l, h.trans h2⟩
      · exact Or.inl (h.trans h2)
    · exact Or.inr ⟨ir', List.mem_cons_of_mem ir hir', h⟩

/-- C3 (reconciler): under the in-app invariant that existing points
carry pairwise distinct `subsection` values, that no key collides with
a generated `Imported-` key of this call, and that every depth
reaching the sort comparator coerces to a number (for a non-numeric
string depth the comparator is inconsistent and the sort order is
implementation-defined), the merged sequence is sorted ascending by
the depth sort key and is a permutation of: every existing point with
all of its matching batch rows shallow-merged over it in order; one
appended point per distinct fresh usable key, folding that key's whole
row group (so later duplicate-key rows merge into the same appended
point instead of being appended again); and the unkeyed rows appended
under their generated keys. -/
theorem C3_reconciler (toNum : String → Option ℚ) (t : ℕ)
    (existing rows : List DataPoint)
    (h1 : (existing.map (fun p => p Field.subsection)).Nodup)
    (h3 : ∀ r ∈ rows, ∀ i : ℕ, usableKey r ≠ some (genKey t i))
    (h4 : ∀ p ∈ existing, ∀ i : ℕ,
      p Field.subsection ≠ some (JSVal.str (genKey t i)))
    (h5 : ∀ p : DataPoint, p ∈ existing ∨ p ∈ rows →
      (depthKey toNum p).isSome = true) :
    (handleConfirmMappingMerge toNum t existing rows).Pairwise (depthLE toNum) ∧
    List.Perm (handleConfirmMappingMerge toNum t existing rows)
      ((existing.map (fun p =>
          (rows.filter (rowMatches p)).foldl shallowMerge p))
       ++ (((rows.filterMap usableKey).dedup.filter (fun s =>
             existing.all (fun p =>
               decide (p Field.subsection ≠ some (JSVal.str s))))).map
           (fun s => (rows.filter (fun r =>
               decide (usableKey r = some s))).foldl shallowMerge emptyPoint))
       ++ rows.enum.filterMap (fun ir =>
           if usableKey ir.2 = none then
             some (Function.update ir.2 Field.subsection
               (some (JSVal.str (genKey t ir.1))))
           else none)) := by
  have hkeys0 : keysOf (initPointsMap existing) =
      existing.map (fun p => p Field.subsection) :=
    keysOf_initPointsMap existing h1
  have hnd0 : (keysOf (initPointsMap existing)).Nodup := by
    rw [hkeys0]
    exact h1
  have hupair : ∀ s ∈ rows.filterMap usableKey, ∀ i : ℕ, s ≠ genKey t i := by
    intro s hsm i hh
    rcases List.mem_filterMap.mp hsm with ⟨r, hr, hur⟩
    exact h3 r hr i (hur.trans (congrArg some hh))
  have hfold : (rows.enum.foldl (mergeRowsStep t) (initPointsMap existing)).map
      (fun e => e.2) =
      existing.map (fun p => (rows.filter (rowMatches p)).foldl shallowMerge p)
      ++ (firstOcc (rows.enum.map (effKey t))
            (existing.map (fun p => p Field.subsection))).map
          (fun k => (rows.enum.filter
              (fun ir => decide (effKey t ir = k))).foldl
            (fun x ir => appliedRow t (some x) ir) emptyPoint) := by
    rw [foldl_mergeRowsStep_dup t rows.enum (initPointsMap existing) hnd0,
      List.map_append]
    congr 1
    · rw [initPointsMap_eq existing h1, List.map_map, List.map_map]
      apply List.map_congr_left
      intro p hp
      have hgrp := foldl_group_existing t p (h4 p hp) rows 0 p
      simpa [List.enum, Function.comp] using hgrp
    · rw [newTail_eq, hkeys0, List.map_map]
      rfl
  have hkeysPerm : List.Perm
      (firstOcc (rows.enum.map (effKey t))
        (existing.map (fun p => p Field.subsection)))
      ((((rows.filterMap usableKey).dedup.filter (fun s =>
            existing.all (fun p =>
              decide (p Field.subsection ≠ some (JSVal.str s))))).map
          (fun s => some (JSVal.str s)))
       ++ rows.enum.filterMap (fun ir =>
           if usableKey ir.2 = none then
             some (some (JSVal.str (genKey t ir.1)))
           else none)) := by
    have hgconv : rows.enum.filterMap (fun ir =>
        if usableKey ir.2 = none then
          some (some (JSVal.str (genKey t ir.1)))
        else none)
        = (rows.enum.filter (fun ir => decide (usableKey ir.2 = none))).map
            (fun ir => some (JSVal.str (genKey t ir.1))) := by
      induction rows.enum with
      | nil => rfl
      | cons ir l ih =>
        by_cases h : usableKey ir.2 = none
        · simp [h, ih]
        · simp [h, ih]
    have hnd2 : (rows.enum.filterMap (fun ir =>
        if usableKey ir.2 = none then
          some (some (JSVal.str (genKey t ir.1)))
        else none)).Nodup := by
      rw [hgconv]
      refine List.Nodup.map_on ?_ (List.Nodup.filter _
        (List.Nodup.of_map Prod.fst (List.nodup_enum_map_fst rows)))
      intro x hx y hy hxy
      simp only [Option.some_inj, JSVal.str.injEq] at hxy
      exact List.inj_on_of_nodup_map (List.nodup_enum_map_fst rows)
        (List.mem_of_mem_filter hx) (List.mem_of_mem_filter hy)
        (genKey_inj t hxy)
    have hnd1 : ((((rows.filterMap usableKey).dedup.filter (fun s =>
          existing.all (fun p =>
            decide (p Field.subsection ≠ some (JSVal.str s))))).map
        (fun s => some (JSVal.str s))).Nodup) :=
      List.Nodup.map (fun a b hab => by
          simpa using hab)
        (List.Nodup.filter _ (List.nodup_dedup _))
    refine (List.perm_ext_iff_of_nodup (firstOcc_nodup _ _)
      (List.Nodup.append hnd1 hnd2 ?_)).mpr ?_
    · intro k hk1 hk2
      rcases List.mem_map.mp hk1 with ⟨s, hs, rfl⟩
      rw [hgconv] at hk2
      rcases List.mem_map.mp hk2 with ⟨ir, hir, hir2⟩
      have hs2 : s = genKey t ir.1 := by
        have := hir2.symm
        simpa using this
      exact hupair s (List.mem_dedup.mp (List.mem_filter.mp hs).1) ir.1 hs2
    · intro k
      rw [mem_firstOcc, List.mem_append]
      constructor
      · rintro ⟨hkm, hkns⟩
        rcases List.mem_map.mp hkm with ⟨ir, hir, rfl⟩
        rcases hu : usableKey ir.2 with _ | s
        · right
          refine List.mem_filterMap.mpr ⟨ir, hir, ?_⟩
          rw [if_pos hu]
          have heff : effKey t ir = some (JSVal.str (genKey t ir.1)) := by
            unfold effKey
            rw [hu]
          rw [heff]
        · left
          have heff : effKey t ir = some (JSVal.str s) := by
            unfold effKey
            rw [hu]
          rw [heff]
          refine List.mem_map.mpr ⟨s, ?_, rfl⟩
          refine List.mem_filter.mpr ⟨List.mem_dedup.mpr ?_, ?_⟩
          · exact List.mem_filterMap.mpr
              ⟨ir.2, List.snd_mem_of_mem_enum hir, hu⟩
          · rw [List.all_eq_true]
            intro p hp
            simp only [decide_eq_true_eq]
            intro hps
            exact hkns (List.mem_map.mpr ⟨p, hp, hps.trans heff.symm⟩)
      · rintro (hkl | hkr)
        · rcases List.mem_map.mp hkl with ⟨s, hsf, rfl⟩
          rcases List.mem_filter.mp hsf with ⟨hsd, hall⟩
          rcases List.mem_filterMap.mp (List.mem_dedup.mp hsd) with ⟨r, hr, hur⟩
          have hr2 : r ∈ rows.enum.map Prod.snd := by
            rw [List.enum_map_snd]
            exact hr
          rcases List.mem_map.mp hr2 with ⟨ir, hir, hir2⟩
          constructor
          · refine List.mem_map.mpr ⟨ir, hir, ?_⟩
            have hu2 : usableKey ir.2 = some s := by
              rw [hir2]
              exact hur
            unfold effKey
            rw [hu2]
          · intro hmem
            rcases List.mem_map.mp hmem with ⟨p, hp, hps⟩
            have hane := List.all_eq_true.mp hall p hp
            simp only [decide_eq_true_eq] at hane
            exact hane hps
        · rcases List.mem_filterMap.mp hkr with ⟨ir, hir, hif⟩
          by_cases hu : usableKey ir.2 = none
          · rw [if_pos hu] at hif
            have hk := Option.some_inj.mp hif
            subst hk
            constructor
            · refine List.mem_map.mpr ⟨ir, hir, ?_⟩
              unfold effKey
              rw [hu]
            · intro hmem
              rcases List.mem_map.mp hmem with ⟨p, hp, hps⟩
              exact h4 p hp ir.1 hps
          · rw [if_neg hu] at hif
            exact absurd hif (by simp)
  have hvalU : ∀ s ∈ (rows.filterMap usableKey).dedup.filter (fun s =>
      existing.all (fun p =>
        decide (p Field.subsection ≠ some (JSVal.str s)))),
      (rows.enum.filter
          (fun ir => decide (effKey t ir = some (JSVal.str s)))).foldl
        (fun x ir => appliedRow t (some x) ir) emptyPoint
      = (rows.filter (fun r =>
          decide (usableKey r = some s))).foldl shallowMerge emptyPoint := by
    intro s hs
    have hsm := List.mem_dedup.mp (List.mem_filter.mp hs).1
    have := foldl_group_usable t s (hupair s hsm) rows 0 emptyPoint
    simpa [List.enum] using this
  have hvalG : ∀ ir ∈ rows.enum, usableKey ir.2 = none →
      (rows.enum.filter (fun ir2 =>
          decide (effKey t ir2 = some (JSVal.str (genKey t ir.1))))).foldl
        (fun x ir2 => appliedRow t (some x) ir2) emptyPoint
      = Function.update ir.2 Field.subsection
          (some (JSVal.str (genKey t ir.1))) := by
    intro ir hir hu
    have hpred : ∀ x ∈ rows.enum,
        (decide (effKey t x = some (JSVal.str (genKey t ir.1)))) =
        (decide (x = ir)) := by
      intro x hx
      apply decide_eq_decide.mpr
      constructor
      · intro hx2
        rcases hux : usableKey x.2 with _ | s
        · have heffx : effKey t x = some (JSVal.str (genKey t x.1)) := by
            unfold effKey
            rw [hux]
          rw [heffx] at hx2
          have hxi : x.1 = ir.1 := genKey_inj t (by
            have := Option.some_inj.mp hx2
            injection this)
          exact List.inj_on_of_nodup_map (List.nodup_enum_map_fst rows)
            hx hir hxi
        · have heffx : effKey t x = some (JSVal.str s) := by
            unfold effKey
            rw [hux]
          rw [heffx] at hx2
          have hsg : s = genKey t ir.1 := by
            have := Option.some_inj.mp hx2
            injection this
          exact absurd (hsg ▸ hux)
            (h3 x.2 (List.snd_mem_of_mem_enum hx) ir.1)
      · rintro rfl
        unfold effKey
        rw [hu]
    rw [List.filter_congr hpred,
      filter_eq_singleton_of_nodup rows.enum
        (List.Nodup.of_map Prod.fst (List.nodup_enum_map_fst rows)) ir hir]
    simp only [List.foldl_cons, List.foldl_nil]
    rw [appliedRow_prev_empty]
    unfold appliedRow
    rw [hu]
  have hmemb : ∀ x ∈ (rows.enum.foldl (mergeRowsStep t)
      (initPointsMap existing)).map (fun e => e.2),
      (depthKey toNum x).isSome = true := by
    intro x hx
    rw [hfold] at hx
    rcases List.mem_append.mp hx with hx | hx
    · rcases List.mem_map.mp hx with ⟨p, hp, rfl⟩
      rcases foldl_shallowMerge_field Field.depth
          (rows.filter (rowMatches p)) p with h | ⟨r, hr, h⟩
      · rw [depthKey_eq_of_field toNum _ p h]
        exact h5 p (Or.inl hp)
      · rw [depthKey_eq_of_field toNum _ r h]
        exact h5 r (Or.inr (List.mem_of_mem_filter hr))
    · rcases List.mem_map.mp hx with ⟨k, hk, rfl⟩
      rcases foldl_appliedRow_depth t
          (rows.enum.filter (fun ir => decide (effKey t ir = k)))
          emptyPoint with h | ⟨ir, hirf, h⟩
      · exact depthKey_isSome_of_none toNum _ h
      · rw [depthKey_eq_of_field toNum _ ir.2 h]
        exact h5 ir.2 (Or.inr
          (List.snd_mem_of_mem_enum (List.mem_of_mem_filter hirf)))
  constructor
  · show (((rows.enum.foldl (mergeRowsStep t) (initPointsMap existing)).map
        (fun e => e.2)).insertionSort (depthLE toNum)).Pairwise (depthLE toNum)
    exact pairwise_insertionSort_optLE (depthKey toNum) (depthLE toNum)
      (fun a b => Iff.rfl) _ hmemb
  · show List.Perm (((rows.enum.foldl (mergeRowsStep t)
        (initPointsMap existing)).map (fun e => e.2)).insertionSort
        (depthLE toNum)) _
    refine (List.perm_insertionSort (depthLE toNum) _).trans ?_
    rw [hfold, List.append_assoc]
    refine List.Perm.append_left _ ?_
    refine (hkeysPerm.map _).trans (List.Perm.of_eq ?_)
    rw [List.map_append]
    congr 1
    · rw [List.map_map]
      apply List.map_congr_left
      intro s hs
      exact hvalU s hs
    · rw [List.map_filterMap]
      apply List.filterMap_congr
      intro ir hir
      by_cases hu : usableKey ir.2 = none
      · rw [if_pos hu, if_pos hu]
        exact congrArg some (hvalG ir hir hu)
      · rw [if_neg hu, if_neg hu]
        rfl

theorem mem_mapSet {κ α : Type} [DecidableEq κ] :
    ∀ (m : List (κ × α)) (k : κ) (v : α) (e : κ × α),
      e ∈ mapSet m k v → e = (k, v) ∨ e ∈ m := by
  intro m
  induction m with
  | nil =>
    intro k v e he
    simp only [mapSet, List.mem_singleton] at he
    exact Or.inl he
  | cons a m ih =>
    intro k v e he
    simp only [mapSet] at he
    by_cases hak : a.1 = k
    · rw [if_pos hak] at he
      rcases List.mem_cons.mp he with rfl | he'
      · exact Or.inl rfl
      · exact Or.inr (List.mem_cons_of_mem a he')
    · rw [if_neg hak] at he
      rcases List.mem_cons.mp he with rfl | he'
      · exact Or.inr (List.mem_cons_self _ _)
      · rcases ih k v e he' with h | h
        · exact Or.inl h
        · exact Or.inr (List.mem_cons_of_mem a h)

theorem mapGet_foldl_steps_of_ne (t : ℕ) :
    ∀ (post : List (ℕ × DataPoint)) (m : List (Option JSVal × DataPoint))
      (K : Option JSVal),
      (∀ ir ∈ post, effKey t ir ≠ K) →
      mapGet (post.foldl (mergeRowsStep t) m) K = mapGet m K := by
  intro post
  induction post with
  | nil => intro m K _; rfl
  | cons ir post ih =>
    intro m K h
    rw [List.foldl_cons, ih _ K (fun ir' h' => h ir' (List.mem_cons_of_mem ir h')),
      mergeRowsStep_eq, mapGet_mapSet]
    rw [if_neg (fun hh : K = effKey t ir => h ir (List.mem_cons_self ir post) hh.symm)]

theorem mem_keysOf_foldl (t : ℕ) :
    ∀ (post : List (ℕ × DataPoint)) (m : List (Option JSVal × DataPoint))
      (K : Option JSVal), K ∈ keysOf m →
      K ∈ keysOf (post.foldl (mergeRowsStep t) m) := by
  intro post
  induction post with
  | nil => intro m K h; exact h
  | cons ir post ih =>
    intro m K h
    rw [List.foldl_cons]
    apply ih
    rw [mergeRowsStep_eq, keysOf_mapSet]
    by_cases hm : effKey t ir ∈ keysOf m
    · rw [if_pos hm]; exact h
    · rw [if_neg hm]; exact List.mem_append_left _ h

/-- Invariant of the reconciliation map: every stored point carries its
own key in its `subsection` field. -/
def mapConsistent (m : List (Option JSVal × DataPoint)) : Prop :=
  ∀ e ∈ m, e.2 Field.subsection = e.1

theorem mapConsistent_mapSet (m : List (Option JSVal × DataPoint))
    (k : Option JSVal) (v : DataPoint) (hm : mapConsistent m)
    (hv : v Field.subsection = k) : mapConsistent (mapSet m k v) := by
  intro e he
  rcases mem_mapSet m k v e he with rfl | he'
  · exact hv
  · exact hm e he'

theorem mapConsistent_initPointsMap (dataPoints : List DataPoint) :
    mapConsistent (initPointsMap dataPoints) := by
  unfold initPointsMap
  have : ∀ (l : List DataPoint) (m : List (Option JSVal × DataPoint)),
      mapConsistent m →
      mapConsistent (l.foldl (fun m p => mapSet m (p Field.subsection) p) m) := by
    intro l
    induction l with
    | nil => intro m hm; exact hm
    | cons p l ih =>
      intro m hm
      rw [List.foldl_cons]
      exact ih _ (mapConsistent_mapSet m _ p hm rfl)
  exact this dataPoints [] (fun e he => absurd he (List.not_mem_nil e))

theorem appliedRow_key (t : ℕ) (prev : Option DataPoint) (ir : ℕ × DataPoint) :
    (appliedRow t prev ir) Field.subsection = effKey t ir := by
  unfold appliedRow effKey
  rcases hu : usableKey ir.2 with _ | s
  · exact Function.update_same _ _ _
  · exact shallowMerge_apply_of_some _ _ _ _ (usableKey_some ir.2 s hu)

theorem mapConsistent_foldl (t : ℕ) :
    ∀ (irows : List (ℕ × DataPoint)) (m : List (Option JSVal × DataPoint)),
      mapConsistent m → mapConsistent (irows.foldl (mergeRowsStep t) m) := by
  intro irows
  induction irows with
  | nil => intro m hm; exact hm
  | cons ir irows ih =>
    intro m hm
    rw [List.foldl_cons, mergeRowsStep_eq]
    exact ih _ (mapConsistent_mapSet m _ _ hm (appliedRow_key t _ ir))

/-- C6 (unkeyed imported rows): generated keys are distinct for distinct
row indices; each unkeyed row appears in the merged result as its own
point, keyed by its generated key; and no row is dropped — every row
(keyed or not) leaves a point in the result carrying its effective key
as `subsection`.  The hypothesis rules out a batch key colliding with a
generated key of the call. -/
theorem C6_unkeyed_rows (toNum : String → Option ℚ) (t : ℕ)
    (existing rows : List DataPoint)
    (h3 : ∀ r ∈ rows, ∀ i : ℕ, usableKey r ≠ some (genKey t i)) :
    (∀ i j : ℕ, i ≠ j → genKey t i ≠ genKey t j) ∧
    (∀ ir ∈ rows.enum, usableKey ir.2 = none →
      Function.update ir.2 Field.subsection (some (JSVal.str (genKey t ir.1)))
        ∈ handleConfirmMappingMerge toNum t existing rows) ∧
    (∀ ir ∈ rows.enum, ∃ p ∈ handleConfirmMappingMerge toNum t existing rows,
      p Field.subsection = effKey t ir) := by
  have hidx : (rows.enum.map Prod.fst).Nodup := List.nodup_enum_map_fst rows
  refine ⟨fun i j hij h => hij (genKey_inj t h), ?_, ?_⟩
  · intro ir hir hu
    obtain ⟨l1, l2, hsplit⟩ := List.append_of_mem hir
    have heff : effKey t ir = some (JSVal.str (genKey t ir.1)) := by
      unfold effKey
      rw [hu]
    have hl2 : ∀ ir' ∈ l2, effKey t ir' ≠ some (JSVal.str (genKey t ir.1)) := by
      intro ir' hir' heq
      have hmem : ir' ∈ rows.enum := by
        rw [hsplit]
        exact List.mem_append_right l1 (List.mem_cons_of_mem ir hir')
      rcases hu' : usableKey ir'.2 with _ | s
      · have heff' : effKey t ir' = some (JSVal.str (genKey t ir'.1)) := by
          unfold effKey
          rw [hu']
        rw [heff'] at heq
        have hii : ir'.1 = ir.1 := genKey_inj t (by
          have := Option.some_inj.mp heq
          injection this)
        have : ir.1 ∉ l2.map Prod.fst := by
          rw [hsplit, List.map_append, List.map_cons] at hidx
          have h2 := (List.nodup_append.mp hidx).2.1
          exact (List.nodup_cons.mp h2).1
        exact this (hii ▸ List.mem_map_of_mem Prod.fst hir')
      · have heff' : effKey t ir' = some (JSVal.str s) := by
          unfold effKey
          rw [hu']
        rw [heff'] at heq
        have hs : s = genKey t ir.1 := by
          have := Option.some_inj.mp heq
          injection this
        exact h3 ir'.2 (List.snd_mem_of_mem_enum hmem) ir.1 (hs ▸ hu')
    have hget : mapGet (rows.enum.foldl (mergeRowsStep t) (initPointsMap existing))
        (some (JSVal.str (genKey t ir.1))) =
        some (Function.update ir.2 Field.subsection
          (some (JSVal.str (genKey t ir.1)))) := by
      rw [hsplit, List.foldl_append, List.foldl_cons,
        mapGet_foldl_steps_of_ne t l2 _ _ hl2, mergeRowsStep_eq, mapGet_mapSet,
        heff, if_pos rfl]
      have heq2 : appliedRow t
          (mapGet (l1.foldl (mergeRowsStep t) (initPointsMap existing))
            (some (JSVal.str (genKey t ir.1)))) ir =
          Function.update ir.2 Field.subsection
            (some (JSVal.str (genKey t ir.1))) := by
        unfold appliedRow
        rw [hu]
      rw [heq2]
    have hmem2 := mapGet_eq_some_mem _ _ _ hget
    unfold handleConfirmMappingMerge
    refine ((List.perm_insertionSort (depthLE toNum) _).mem_iff).mpr ?_
    exact List.mem_map_of_mem (fun e => e.2) hmem2
  · intro ir hir
    obtain ⟨l1, l2, hsplit⟩ := List.append_of_mem hir
    have hkey : effKey t ir ∈
        keysOf (rows.enum.foldl (mergeRowsStep t) (initPointsMap existing)) := by
      rw [hsplit, List.foldl_append, List.foldl_cons]
      apply mem_keysOf_foldl
      rw [mergeRowsStep_eq, keysOf_mapSet]
      by_cases hm : effKey t ir ∈
          keysOf (l1.foldl (mergeRowsStep t) (initPointsMap existing))
      · rw [if_pos hm]; exact hm
      · rw [if_neg hm]; exact List.mem_append_right _ (List.mem_singleton.mpr rfl)
    rcases hfin : mapGet (rows.enum.foldl (mergeRowsStep t) (initPointsMap existing))
        (effKey t ir) with _ | v
    · exact absurd ((mapGet_eq_none_iff _ _).mp hfin) (fun h => h hkey)
    · have hmem2 := mapGet_eq_some_mem _ _ _ hfin
      have hcons := mapConsistent_foldl t rows.enum (initPointsMap existing)
        (mapConsistent_initPointsMap existing)
      refine ⟨v, ?_, hcons _ hmem2⟩
      unfold handleConfirmMappingMerge
      refine ((List.perm_insertionSort (depthLE toNum) _).mem_iff).mpr ?_
      exact List.mem_map_of_mem (fun e => e.2) hmem2

/-! ### Manual-entry rejection (C7) -/

theorem foldl_form_no_value (pf : String → Option ℚ) (form : Field → String) :
    ∀ (l : List Field) (acc : DataPoint × Bool),
      (∀ k ∈ l, k ≠ Field.subsection → form k ≠ "" → pf (form k) = none) →
      (l.foldl
        (fun (acc : DataPoint × Bool) key =>
          if key ≠ Field.subsection ∧ form key ≠ "" then
            match pf (form key) with
            | some q => (Function.update acc.1 key (some (JSVal.num q)), true)
            | none => acc
          else acc) acc).2 = acc.2 := by
  intro l
  induction l with
  | nil => intro acc _; rfl
  | cons k l ih =>
    intro acc h
    rw [List.foldl_cons]
    have hstep : (if k ≠ Field.subsection ∧ form k ≠ "" then
        match pf (form k) with
        | some q => (Function.update acc.1 k (some (JSVal.num q)), true)
        | none => acc
        else acc) = acc := by
      by_cases hc : k ≠ Field.subsection ∧ form k ≠ ""
      · rw [if_pos hc, h k (List.mem_cons_self k l) hc.1 hc.2]
      · rw [if_neg hc]
    rw [hstep]
    exact ih acc (fun k' hk' => h k' (List.mem_cons_of_mem k hk'))

theorem manualEntryAcc_false (pf : String → Option ℚ) (form : Field → String)
    (subsectionId : String)
    (h : ∀ k ∈ formFields, k ≠ Field.subsection → form k ≠ "" →
      pf (form k) = none) :
    (manualEntryAcc pf form subsectionId).2 = false := by
  unfold manualEntryAcc
  rw [foldl_form_no_value pf form formFields _ h]

/-- C7: a manual submission is rejected with no state mutation (the
function returns `none`, so the section — its data-point series, count
and `labAnalysis` — is untouched) whenever the subsection field is
empty after trimming, or no other supplied field parses as a number. -/
theorem C7_manual_entry_rejection (toNum pf : String → Option ℚ)
    (form : Field → String) (s : Section)
    (h : (form Field.subsection).trim = "" ∨
      (∀ k ∈ formFields, k ≠ Field.subsection → form k ≠ "" →
        pf (form k) = none)) :
    handleAddDataPoint toNum pf form s = none := by
  unfold handleAddDataPoint
  rcases h with h | h
  · rw [if_pos h]
  · by_cases hsub : (form Field.subsection).trim = ""
    · rw [if_pos hsub]
    · rw [if_neg hsub,
        if_pos (manualEntryAcc_false pf form ((form Field.subsection).trim) h)]

/-! ### Bulk-import parsing and the abort conditions (C8) -/

/-- JavaScript `String(value)` for the cell values that can reach the
subsection column.  Number formatting is a JavaScript built-in and is
passed as the parameter `numToStr`. -/
def jsToString (numToStr : ℚ → String) : JSVal → String
  | JSVal.num q => numToStr q
  | JSVal.nan => "NaN"
  | JSVal.str s => s
  | JSVal.null => "null"

/-- Model of `parseFloat(String(value).replace(',', '.'))`: a numeric
cell round-trips exactly; a string cell is parsed by the built-in,
passed as the parameter `pfc` (`none` = `NaN`); `NaN` and `null` cells
parse to `NaN` (they are filtered out earlier anyway). -/
def parseFloatJS (pfc : String → Option ℚ) : JSVal → Option ℚ
  | JSVal.num q => some q
  | JSVal.str s => pfc s
  | _ => none

/-- Embedding of the per-row remapping of `handleConfirmMapping`
(`src/components/DataInputManager.tsx`, lines 195-214): for each cell
whose header is mapped, skip `null`/empty values, keep the subsection
cell as a string, and parse every other mapped cell as a float,
dropping cells that do not parse. -/
def buildRow (pfc : String → Option ℚ) (numToStr : ℚ → String)
    (finalMap : String → Option Field) (row : List (String × JSVal)) : DataPoint :=
  row.foldl
    (fun (acc : DataPoint) hv =>
      match finalMap hv.1 with
      | none => acc
      | some mappedKey =>
        if hv.2 = JSVal.null ∨ hv.2 = JSVal.str "" then acc
        else if mappedKey = Field.subsection then
          Function.update acc Field.subsection
            (some (JSVal.str (jsToString numToStr hv.2)))
        else
          match parseFloatJS pfc hv.2 with
          | some q => Function.update acc mappedKey (some (JSVal.num q))
          | none => acc)
    emptyPoint

/-- The surviving parsed rows of a bulk import: built rows that carry
at least one mapped field (`Object.keys(dp).length > 0`). -/
def parsedRows (pfc : String → Option ℚ) (numToStr : ℚ → String)
    (finalMap : String → Option Field) (rows : List (List (String × JSVal))) :
    List DataPoint :=
  (rows.map (buildRow pfc numToStr finalMap)).filter
    (fun dp => decide (∃ f, dp f ≠ none))

/-- Embedding of the confirmation phase of `handleConfirmMapping`
(`src/components/DataInputManager.tsx`, lines 195-248): rows yielding no
mapped field are discarded; if nothing remains the operation errors out
before any merge; otherwise the parsed rows are reconciled and the
section is updated with the merged series and recomputed averages. -/
def handleConfirmMappingProcess (toNum : String → Option ℚ)
    (pfc : String → Option ℚ) (numToStr : ℚ → String)
    (finalMap : String → Option Field) (rows : List (List (String × JSVal)))
    (t : ℕ) (s : Section) : Except String Section :=
  if (parsedRows pfc numToStr finalMap rows).isEmpty then
    Except.error "No valid data points could be parsed from the file."
  else
    Except.ok { s with
                dataPoints := handleConfirmMappingMerge toNum t s.dataPoints
                  (parsedRows pfc numToStr finalMap rows)
                labAnalysis := calculateAveragesFromDataPoints
                  (handleConfirmMappingMerge toNum t s.dataPoints
                    (parsedRows pfc numToStr finalMap rows)) }

/-- Embedding of the header check of `triggerHeaderMapping`
(`src/components/DataInputManager.tsx`, lines 159-164): with zero
extracted headers the operation errors out; otherwise the headers are
handed on to the external `mapCsvHeaders` call. -/
def triggerHeaderMappingStep (headers : List String) : Except String (List String) :=
  if headers.isEmpty then
    Except.error "Could not read headers from file."
  else Except.ok headers

/-- C8: bulk import aborts with an error and performs no merge in two
cases — zero extractable headers abort before the external mapping call
is invoked (the `Except.ok` carrying the headers to that call is never
produced), and zero rows containing any mapped field abort before any
point is merged (no updated section is produced). -/
theorem C8_bulk_import_aborts :
    (∀ headers : List String, headers = [] →
      triggerHeaderMappingStep headers =
        Except.error "Could not read headers from file.") ∧
    (∀ (toNum pfc : String → Option ℚ) (numToStr : ℚ → String)
      (finalMap : String → Option Field) (rows : List (List (String × JSVal)))
      (t : ℕ) (s : Section),
      (∀ row ∈ rows, buildRow pfc numToStr finalMap row = emptyPoint) →
      handleConfirmMappingProcess toNum pfc numToStr finalMap rows t s =
        Except.error "No valid data points could be parsed from the file.") := by
  constructor
  · intro headers h
    subst h
    rfl
  · intro toNum pfc numToStr finalMap rows t s h
    unfold handleConfirmMappingProcess
    have hfilter : parsedRows pfc numToStr finalMap rows = [] := by
      unfold parsedRows
      rw [List.filter_eq_nil_iff]
      intro dp hdp
      rcases List.mem_map.mp hdp with ⟨row, hrow, rfl⟩
      rw [h row hrow]
      simp [emptyPoint]
    rw [hfilter]
    rfl

/-! ### The series/summary invariant (C2) -/

/-- C2 (amended): the manual add/update path and the bulk-merge path
always produce a section whose `labAnalysis` equals the recomputed
averages of its data points (series and summary updated together); the
load path re-establishes the invariant only for sections with at least
one data point. -/
theorem C2_invariant_amended :
    (∀ (toNum pf : String → Option ℚ) (form : Field → String) (s s' : Section),
      handleAddDataPoint toNum pf form s = some s' →
      s'.labAnalysis = calculateAveragesFromDataPoints s'.dataPoints) ∧
    (∀ (toNum pfc : String → Option ℚ) (numToStr : ℚ → String)
      (finalMap : String → Option Field) (rows : List (List (String × JSVal)))
      (t : ℕ) (s s' : Section),
      handleConfirmMappingProcess toNum pfc numToStr finalMap rows t s =
        Except.ok s' →
      s'.labAnalysis = calculateAveragesFromDataPoints s'.dataPoints) ∧
    (∀ s : Section, s.dataPoints ≠ [] →
      (recomputeOnFetch s).labAnalysis =
        calculateAveragesFromDataPoints (recomputeOnFetch s).dataPoints) := by
  refine ⟨?_, ?_, ?_⟩
  · intro toNum pf form s s' h
    unfold handleAddDataPoint at h
    by_cases h1 : (form Field.subsection).trim = ""
    · rw [if_pos h1] at h
      exact absurd h (by simp)
    · rw [if_neg h1] at h
      by_cases h2 : (manualEntryAcc pf form ((form Field.subsection).trim)).2 = false
      · rw [if_pos h2] at h
        exact absurd h (by simp)
      · rw [if_neg h2] at h
        rw [← Option.some_inj.mp h]
  · intro toNum pfc numToStr finalMap rows t s s' h
    unfold handleConfirmMappingProcess at h
    by_cases h1 : (parsedRows pfc numToStr finalMap rows).isEmpty = true
    · rw [if_pos h1] at h
      exact absurd h (by simp)
    · rw [if_neg h1] at h
      rw [← Except.ok.inj h]
  · intro s h
    unfold recomputeOnFetch
    rw [if_pos (by simpa using List.length_pos.mpr h)]

/-- Concrete stored row refuting C2 as stated: an empty data-point
series together with a non-null stored `lab_analysis`. -/
def cexRow : SectionRow :=
  ⟨"s1", some [],
    some (Function.update (fun _ => none) Field.delta18O (some (5 : ℚ)))⟩

/-- C2 (counterexample): after loading `cexRow` from the store, the
section's `labAnalysis` maps `delta18O` to `5`, while the
mean-of-finite-values of its (empty) data-point series is the empty
mapping — the load path does not re-establish the invariant for a
section with an empty series. -/
theorem C2_counterexample :
    ¬ (∀ (rows : List SectionRow) (s : Section), s ∈ loadSections rows →
        s.labAnalysis = calculateAveragesFromDataPoints s.dataPoints) := by
  intro hclaim
  have hs : recomputeOnFetch (dbSectionToAppSection cexRow) ∈ loadSections [cexRow] :=
    List.mem_singleton.mpr rfl
  have h := hclaim [cexRow] _ hs
  have h5 := congrFun h Field.delta18O
  exact absurd h5 (by decide)

instance : DecidableEq Section := fun a b =>
  decidable_of_iff
    (a.id = b.id ∧ a.dataPoints = b.dataPoints ∧ a.labAnalysis = b.labAnalysis)
    (by
      constructor
      · rintro ⟨h1, h2, h3⟩
        cases a
        cases b
        simp_all
      · rintro rfl
        exact ⟨rfl, rfl, rfl⟩)

def secW : Section := ⟨"sec", [emptyPoint], fun _ => none⟩

theorem C2_witness :
    (recomputeOnFetch secW).labAnalysis =
      calculateAveragesFromDataPoints (recomputeOnFetch secW).dataPoints :=
  C2_invariant_amended.2.2 secW (by simp [secW])

/-! ### Header-mapping fallback (C9) -/

/-- Outcome of the external text-classification request. -/
inductive AiCall where
  | raised
  | returned (text : String)

/-- The all-null fallback mapping
`headers.reduce((acc, header) => ({...acc, [header]: null}), {})`. -/
def fallbackMapping (headers : List String) : List (String × Option String) :=
  headers.foldl (fun acc h => mapSet acc h none) []

/-- Embedding of the result of `mapCsvHeaders`
(`src/services/coreService.ts` service file, `mapCsvHeaders`): if the
request raised, or its text cannot be parsed as JSON (`parseJson`
returns `none`), the catch block returns the all-null fallback mapping;
otherwise the parsed object's `mapping` property (itself possibly
`undefined`) is returned as-is. -/
def mapCsvHeadersModel (headers : List String) (call : AiCall)
    (parseJson : String → Option (Option (List (String × Option String)))) :
    Option (List (String × Option String)) :=
  match call with
  | AiCall.raised => some (fallbackMapping headers)
  | AiCall.returned text =>
    match parseJson text with
    | none => some (fallbackMapping headers)
    | some mapping => mapping

theorem mapGet_fallback (hd : String) :
    ∀ (l : List String) (acc : List (String × Option String)),
      mapGet (l.foldl (fun acc h => mapSet acc h none) acc) hd =
        if hd ∈ l then some none else mapGet acc hd := by
  intro l
  induction l with
  | nil => intro acc; simp
  | cons a l ih =>
    intro acc
    rw [List.foldl_cons, ih]
    by_cases hmem : hd ∈ l
    · simp [hmem]
    · rw [if_neg hmem, mapGet_mapSet]
      by_cases hda : hd = a
      · simp [hda]
      · simp [hda, hmem]

/-- C9: whenever the external header-classification call fails — the
request raises, or its output cannot be parsed — `mapCsvHeaders`
returns the fallback mapping that assigns null ("do not import") to
every header, rather than propagating the error. -/
theorem C9_header_mapping_fallback (headers : List String) (call : AiCall)
    (parseJson : String → Option (Option (List (String × Option String))))
    (h : call = AiCall.raised ∨
      ∃ text, call = AiCall.returned text ∧ parseJson text = none) :
    mapCsvHeadersModel headers call parseJson = some (fallbackMapping headers) ∧
    ∀ hd : String, mapGet (fallbackMapping headers) hd =
      if hd ∈ headers then some none else none := by
  constructor
  · rcases h with rfl | ⟨text, rfl, hp⟩
    · rfl
    · simp [mapCsvHeadersModel, hp]
  · intro hd
    unfold fallbackMapping
    rw [mapGet_fallback hd headers []]
    by_cases hmem : hd ∈ headers
    · simp [hmem]
    · simp [hmem, mapGet]

theorem C9_witness :
    mapCsvHeadersModel ["a"] AiCall.raised (fun _ => none) =
      some (fallbackMapping ["a"]) ∧
    mapGet (fallbackMapping ["a"]) "a" =
      if "a" ∈ ["a"] then some none else none := by
  have h := C9_header_mapping_fallback ["a"] AiCall.raised (fun _ => none)
    (Or.inl rfl)
  exact ⟨h.1, h.2 "a"⟩

/-! ### Subsection defaulting on load (C10) -/

/-- C10: every section produced by `dbSectionToAppSection` has a truthy
(non-empty) `subsection` on each data point; a point whose stored
`subsection` is falsy (in particular missing) receives the label
`Subsection N` with `N` its 1-based position, and a point with a truthy
stored `subsection` keeps it; all other fields are preserved. -/
theorem C10_load_subsection_default (r : SectionRow) :
    (dbSectionToAppSection r).dataPoints.length =
      (r.data_points.getD []).length ∧
    ∀ (i : ℕ) (dp : DataPoint), (r.data_points.getD []).get? i = some dp →
      ∃ p : DataPoint, (dbSectionToAppSection r).dataPoints.get? i = some p ∧
        jsTruthy (p Field.subsection) = true ∧
        (∀ f : Field, f ≠ Field.subsection → p f = dp f) ∧
        (jsTruthy (dp Field.subsection) = true →
          p Field.subsection = dp Field.subsection) ∧
        (jsTruthy (dp Field.subsection) = false →
          p Field.subsection =
            some (JSVal.str ("Subsection " ++ Nat.repr (i + 1)))) := by
  constructor
  · unfold dbSectionToAppSection
    simp [List.enum_length]
  · intro i dp hget
    have hlabel : ("Subsection " ++ Nat.repr (i + 1)) ≠ "" := by
      intro hh
      have hd := congrArg String.data hh
      rw [String.data_append] at hd
      have := (List.append_eq_nil.mp hd).1
      exact absurd this (by decide)
    refine ⟨Function.update dp Field.subsection
      (if jsTruthy (dp Field.subsection) then dp Field.subsection
       else some (JSVal.str ("Subsection " ++ Nat.repr (i + 1)))), ?_, ?_, ?_, ?_, ?_⟩
    · unfold dbSectionToAppSection
      simp only [List.get?_map, List.get?_enum, hget]
      rfl
    · rw [Function.update_same]
      by_cases ht : jsTruthy (dp Field.subsection) = true
      · rw [if_pos ht]
        exact ht
      · rw [if_neg ht]
        unfold jsTruthy
        simp [hlabel]
    · intro f hf
      rw [Function.update_apply, if_neg hf]
    · intro ht
      rw [Function.update_same, if_pos ht]
    · intro ht
      rw [Function.update_same, if_neg (by rw [ht]; exact Bool.false_ne_true)]

def rowW : SectionRow := ⟨"s", some [emptyPoint], none⟩

theorem C10_witness :
    (dbSectionToAppSection rowW).dataPoints.length =
      (rowW.data_points.getD []).length ∧
    ((dbSectionToAppSection rowW).dataPoints.get? 0).map
      (fun p => jsTruthy (p Field.subsection)) = some true := by
  have h := C10_load_subsection_default rowW
  refine ⟨h.1, ?_⟩
  obtain ⟨p, h1, h2, -, -, -⟩ := h.2 0 emptyPoint rfl
  rw [h1]
  simp [h2]

/-! ### Age-model merge (C4) -/

/-- A data point of the calibration response: an optional depth and an
optional age (`none` covers both a missing and a `null` age, which the
code treats alike). -/
structure RespPoint where
  depth : Option ℚ
  age : Option ℚ
  deriving DecidableEq

/-- A section of the calibration response: its id and, when present and
an array, its depth/age pairs. -/
structure RespSection where
  id : String
  dataPoints : Option (List RespPoint)
  deriving DecidableEq

/-- The check `calibratedSectionsFromAI.some(cs => cs.dataPoints &&
Array.isArray(cs.dataPoints) && cs.dataPoints.some(dp => dp.age !==
undefined && dp.age !== null))`. -/
def hasAnyAgeData (resp : List RespSection) : Bool :=
  resp.any (fun cs =>
    match cs.dataPoints with
    | some dps => dps.any (fun dp => dp.age.isSome)
    | none => false)

/-- Model of `parseFloat(Number(a).toFixed(4))`: rounding to four
decimal places, halves away from zero (ECMAScript `toFixed` picks the
larger candidate for non-negative inputs and works on the magnitude for
negative ones). -/
def round4 (q : ℚ) : ℚ :=
  if q < 0 then -(((⌊-q * 10000 + 1/2⌋ : ℤ) : ℚ) / 10000)
  else ((⌊q * 10000 + 1/2⌋ : ℤ) : ℚ) / 10000

/-- The response pairs with a defined depth and a non-null age
(`dp.depth !== undefined && dp.age !== undefined && dp.age !== null`). -/
def agePairs (cdps : List RespPoint) : List (ℚ × ℚ) :=
  cdps.filterMap (fun dp =>
    match dp.depth, dp.age with
    | some d, some a => some (d, a)
    | _, _ => none)

/-- The `ageMap` of `generateAgeModel`: a JavaScript `Map` built from
the age pairs. -/
def ageMapOf (cdps : List RespPoint) : List (ℚ × ℚ) :=
  (agePairs cdps).foldl (fun m p => mapSet m p.1 p.2) []

/-- Embedding of the per-section merge of `generateAgeModel`
(`src/services/coreService.ts` service file, lines 707-733): the
response section with the matching id supplies a depth-to-age map; with
no usable pair the section passes through unchanged; otherwise every
point with a depth found in the map receives the rounded returned age,
and every other point keeps its prior age. -/
def applyAges (m : List (ℚ × ℚ)) (dp : DataPoint) : DataPoint :=
  match dp Field.depth with
  | some (JSVal.num d) =>
    match mapGet m d with
    | some a => Function.update dp Field.age (some (JSVal.num (round4 a)))
    | none => Function.update dp Field.age (dp Field.age)
  | some _ => Function.update dp Field.age (dp Field.age)
  | none => dp

def mergeCalibratedSection (resp : List RespSection) (s : Section) : Section :=
  match resp.find? (fun cs => decide (cs.id = s.id)) with
  | some cs =>
    match cs.dataPoints with
    | some cdps =>
      if (ageMapOf cdps).isEmpty then s
      else
        { s with dataPoints := s.dataPoints.map (applyAges (ageMapOf cdps)) }
    | none => s
  | none => s

/-- Embedding of the validation and merge of `generateAgeModel`
(`src/services/coreService.ts` service file, lines 692-735): an empty
response is rejected; a response with no non-null age anywhere is
rejected with a single aggregate error before any section is merged;
otherwise every section is merged. -/
def generateAgeModelMerge (sections : List Section) (resp : List RespSection) :
    Except String (List Section) :=
  if resp.isEmpty then
    Except.error "The AI response for the age model was empty or invalid."
  else if hasAnyAgeData resp = false then
    Except.error "AI failed to calculate age data. This can happen if fewer than two tie-points are provided for a section. Please check your inputs."
  else
    Except.ok (sections.map (mergeCalibratedSection resp))

/-- Specification-side view: the usable (depth, age) pairs returned for
a given section id. -/
def respPairsFor (resp : List RespSection) (sid : String) : List (ℚ × ℚ) :=
  match resp.find? (fun cs => decide (cs.id = sid)) with
  | some cs => agePairs (cs.dataPoints.getD [])
  | none => []

theorem foldl_mapSet_pairs_fresh {κ α : Type} [DecidableEq κ] :
    ∀ (l : List (κ × α)) (m : List (κ × α)),
      (keysOf m ++ l.map Prod.fst).Nodup →
      l.foldl (fun m p => mapSet m p.1 p.2) m = m ++ l := by
  intro l
  induction l with
  | nil => intro m _; simp
  | cons p l ih =>
    intro m hnd
    have hfresh : p.1 ∉ keysOf m := by
      intro hmem
      rcases List.nodup_append.mp hnd with ⟨_, _, hdisj⟩
      exact hdisj hmem (by simp)
    have hp : (p.1, p.2) = p := rfl
    rw [List.foldl_cons, mapSet_of_not_mem_keys m p.1 p.2 hfresh,
      ih (m ++ [(p.1, p.2)]) (by
        have heq : keysOf (m ++ [(p.1, p.2)]) ++ l.map Prod.fst =
            keysOf m ++ (p.1 :: l.map Prod.fst) := by
          simp [keysOf]
        rw [heq]
        simpa using hnd), hp]
    simp

theorem ageMapOf_eq (cdps : List RespPoint)
    (hnd : ((agePairs cdps).map Prod.fst).Nodup) :
    ageMapOf cdps = agePairs cdps := by
  unfold ageMapOf
  rw [foldl_mapSet_pairs_fresh (agePairs cdps) [] (by simpa [keysOf] using hnd)]
  simp

theorem applyAges_of_get (m : List (ℚ × ℚ)) (dp : DataPoint) (d a : ℚ)
    (hd : dp Field.depth = some (JSVal.num d)) (hg : mapGet m d = some a) :
    applyAges m dp = Function.update dp Field.age (some (JSVal.num (round4 a))) := by
  unfold applyAges
  rw [hd]
  show (match mapGet m d with
        | some a => Function.update dp Field.age (some (JSVal.num (round4 a)))
        | none => Function.update dp Field.age (dp Field.age)) =
    Function.update dp Field.age (some (JSVal.num (round4 a)))
  rw [hg]

theorem applyAges_of_no_get (m : List (ℚ × ℚ)) (dp : DataPoint)
    (hno : ∀ d : ℚ, dp Field.depth = some (JSVal.num d) → mapGet m d = none) :
    applyAges m dp = dp := by
  unfold applyAges
  rcases hdd : dp Field.depth with _ | v
  · rfl
  · rcases v with d | _ | st | _
    · show (match mapGet m d with
            | some a => Function.update dp Field.age (some (JSVal.num (round4 a)))
            | none => Function.update dp Field.age (dp Field.age)) = dp
      rw [hno d hdd]
      exact Function.update_eq_self Field.age dp
    · exact Function.update_eq_self Field.age dp
    · exact Function.update_eq_self Field.age dp
    · exact Function.update_eq_self Field.age dp

/-- C4 (amended): if the returned payload carries no non-null age for
any point of any section, the whole operation fails with a single
aggregate error and no merged output is produced; on success, each
original point whose (numeric) depth equals the depth of a returned
pair with non-null age receives that returned age rounded to four
decimal places (half away from zero), and every point whose depth is
absent from the response keeps its prior age (the point is unchanged;
undefined stays undefined). -/
theorem C4_age_model_merge_amended (sections : List Section)
    (resp : List RespSection)
    (hdep : ∀ cs ∈ resp, ((agePairs (cs.dataPoints.getD [])).map Prod.fst).Nodup) :
    (hasAnyAgeData resp = false →
      (generateAgeModelMerge sections resp).toOption = none) ∧
    (∀ out, generateAgeModelMerge sections resp = Except.ok out →
      out.length = sections.length ∧
      ∀ (k : ℕ) (s : Section), sections.get? k = some s →
        ∃ s', out.get? k = some s' ∧ s'.id = s.id ∧
          s'.dataPoints.length = s.dataPoints.length ∧
          ∀ (j : ℕ) (dp : DataPoint), s.dataPoints.get? j = some dp →
            ∃ dp', s'.dataPoints.get? j = some dp' ∧
              (∀ (d a : ℚ), dp Field.depth = some (JSVal.num d) →
                (d, a) ∈ respPairsFor resp s.id →
                dp' = Function.update dp Field.age
                  (some (JSVal.num (round4 a)))) ∧
              ((∀ d : ℚ, dp Field.depth = some (JSVal.num d) →
                  d ∉ (respPairsFor resp s.id).map Prod.fst) →
                dp' = dp)) := by
  constructor
  · intro hno
    unfold generateAgeModelMerge
    by_cases hre : resp.isEmpty = true
    · rw [if_pos hre]
      rfl
    · rw [if_neg hre, if_pos hno]
      rfl
  · intro out hout
    unfold generateAgeModelMerge at hout
    by_cases hre : resp.isEmpty = true
    · rw [if_pos hre] at hout
      exact absurd hout (by simp)
    · rw [if_neg hre] at hout
      by_cases hage : hasAnyAgeData resp = false
      · rw [if_pos hage] at hout
        exact absurd hout (by simp)
      · rw [if_neg hage] at hout
        have hout2 := (Except.ok.inj hout).symm
        subst hout2
        refine ⟨by simp, ?_⟩
        intro k s hk
        refine ⟨mergeCalibratedSection resp s, ?_, ?_⟩
        · rw [List.get?_map, hk]
          rfl
        · unfold mergeCalibratedSection respPairsFor
          split
          next cs hfind =>
            have hcs : cs ∈ resp := List.mem_of_find?_eq_some hfind
            have hnd := hdep cs hcs
            split
            case _ cdps hdps =>
              rw [hdps] at hnd
              simp only [Option.getD_some] at hnd
              have hmapeq := ageMapOf_eq cdps hnd
              by_cases hempty : (ageMapOf cdps).isEmpty = true
              · rw [if_pos hempty]
                have hpairs : agePairs cdps = [] := by
                  rw [← hmapeq]
                  exact List.isEmpty_iff.mp hempty
                refine ⟨rfl, rfl, fun j dp hj => ⟨dp, hj, ?_, fun _ => rfl⟩⟩
                intro d a _ hmem
                simp only [hdps, Option.getD_some, hpairs] at hmem
                exact absurd hmem (List.not_mem_nil (d, a))
              · rw [if_neg hempty]
                refine ⟨rfl, by simp, ?_⟩
                intro j dp hj
                refine ⟨_, by rw [List.get?_map, hj]; rfl, ?_, ?_⟩
                · intro d a hd hmem
                  simp only [hdps, Option.getD_some] at hmem
                  have hget : mapGet (ageMapOf cdps) d = some a := by
                    rw [hmapeq]
                    exact mapGet_of_mem_nodup (agePairs cdps)
                      (by simpa [keysOf] using hnd) (d, a) hmem
                  exact applyAges_of_get (ageMapOf cdps) dp d a hd hget
                · intro hnomem
                  refine applyAges_of_no_get (ageMapOf cdps) dp (fun d hdd => ?_)
                  have hmem := hnomem d hdd
                  rw [hdps] at hmem
                  simp only [Option.getD_some] at hmem
                  refine (mapGet_eq_none_iff _ _).mpr ?_
                  rw [hmapeq]
                  simpa [keysOf] using hmem
            case _ hdps =>
              exact ⟨rfl, rfl, fun j dp hj => ⟨dp, hj, fun d a _ hmem => absurd
                (by simpa [hdps, agePairs] using hmem) (List.not_mem_nil (d, a)),
                fun _ => rfl⟩⟩
          next hfind =>
            exact ⟨rfl, rfl, fun j dp hj => ⟨dp, hj, fun d a _ hmem => absurd
              hmem (List.not_mem_nil (d, a)), fun _ => rfl⟩⟩

theorem C4_witness :
    (generateAgeModelMerge [] []).toOption = none :=
  (C4_age_model_merge_amended [] []
    (fun cs hcs => absurd hcs (List.not_mem_nil cs))).1 rfl

def dpC4 : DataPoint :=
  Function.update
    (Function.update emptyPoint Field.subsection (some (JSVal.str "a")))
    Field.depth (some (JSVal.num 10))

def cSecs : List Section := [⟨"s1", [dpC4], fun _ => none⟩]

def cResp : List RespSection := [⟨"s1", some [⟨some 10, some (1/20000)⟩]⟩]

/-- C4 (counterexample): the response returns age `1/20000` (= 0.00005)
for depth 10, but the merged point receives `1/10000` (= 0.0001) — the
returned age rounded to four decimal places, not the returned age
itself. -/
theorem C4_counterexample :
    (generateAgeModelMerge cSecs cResp).map
      (fun l => l.map (fun s => s.dataPoints.map (fun dp => dp Field.age))) =
      Except.ok [[some (JSVal.num (1/10000))]] ∧
    (1/10000 : ℚ) ≠ 1/20000 := by
  constructor
  · have hr : round4 ((20000 : ℚ)⁻¹) = (10000 : ℚ)⁻¹ := by
      unfold round4
      rw [if_neg (by norm_num)]
      have h1 : ((20000 : ℚ)⁻¹) * 10000 + 1/2 = 1 := by norm_num
      rw [h1]
      norm_num
    simp [generateAgeModelMerge, cSecs, cResp, hasAnyAgeData,
      mergeCalibratedSection, applyAges, ageMapOf, agePairs, mapSet, mapGet,
      List.find?, dpC4, hr, Function.update_apply, Except.map]
  · norm_num

/-! ### Composite splice (C5) -/

/-- JavaScript coercion applied to `point.age` by the splice filter
`point.age !== undefined && point.age >= start && point.age <= end`:
an `undefined` age is excluded by the explicit check, a `NaN` age makes
both comparisons false, a `null` age coerces to `0`, and a string age
is coerced with `ToNumber` (the abstract parameter `toNum`; `none` =
`NaN`, which makes both comparisons false). -/
def ageToNum (toNum : String → Option ℚ) : Option JSVal → Option ℚ
  | some (JSVal.num a) => some a
  | some (JSVal.str s) => toNum s
  | some JSVal.null => some 0
  | _ => none

/-- Embedding of the `compositeSplice` memo
(`src/components/CoreSynthesisView.tsx`, lines 121-141): sections with
a fully configured interval contribute the points whose coerced age
lies between the smaller and the larger bound (inclusive); the
collected points are sorted ascending by the age sort key. -/
def compositeSplice (toNum : String → Option ℚ)
    (calibratedSections : List Section)
    (spliceIntervals : String → Option (Option ℚ × Option ℚ)) : List DataPoint :=
  (calibratedSections.foldl (fun allPoints s =>
    match spliceIntervals s.id with
    | some (some sa, some ea) =>
        allPoints ++ s.dataPoints.filter (fun p =>
          match ageToNum toNum (p Field.age) with
          | some a => decide (min sa ea ≤ a ∧ a ≤ max sa ea)
          | none => false)
    | _ => allPoints) []).insertionSort (ageLE toNum)

theorem foldl_append_flatMap {α β : Type} (f : β → List α) :
    ∀ (l : List β) (init : List α),
      l.foldl (fun acc b => acc ++ f b) init = init ++ l.flatMap f := by
  intro l
  induction l with
  | nil => intro init; simp
  | cons b l ih =>
    intro init
    rw [List.foldl_cons, ih (init ++ f b)]
    simp

theorem ageKey_isSome_of_ageToNum (toNum : String → Option ℚ) (p : DataPoint)
    (a : ℚ) (h : ageToNum toNum (p Field.age) = some a) :
    (ageKey toNum p).isSome = true := by
  unfold ageKey
  rcases hpa : p Field.age with _ | v
  · rw [hpa] at h
    exact absurd h (by simp [ageToNum])
  · rcases v with q | _ | st | _
    · rfl
    · rw [hpa] at h
      exact absurd h (by simp [ageToNum])
    · rw [hpa] at h
      simp only [ageToNum] at h
      by_cases hst : st = ""
      · simp [hst]
      · simp [hst, h]
    · rfl

/-- C5: the composite splice contains exactly the data points of
sections with a fully configured interval whose age, after the
JavaScript comparison coercions (`null` compares as `0`, strings
through `ToNumber`; `undefined` and `NaN` never pass), lies inclusively
between the smaller and larger of the two configured bounds; and it is
sorted ascending by the age sort key (every included point has a
defined key, so no `NaN` tie ever reaches the sort comparator). -/
theorem C5_composite_splice (toNum : String → Option ℚ) (cal : List Section)
    (intervals : String → Option (Option ℚ × Option ℚ)) :
    (∀ p : DataPoint, p ∈ compositeSplice toNum cal intervals ↔
      ∃ s, s ∈ cal ∧ p ∈ s.dataPoints ∧
        ∃ sa ea a : ℚ, intervals s.id = some (some sa, some ea) ∧
          ageToNum toNum (p Field.age) = some a ∧
          min sa ea ≤ a ∧ a ≤ max sa ea) ∧
    (compositeSplice toNum cal intervals).Pairwise (ageLE toNum) := by
  have hmem : ∀ p : DataPoint,
      p ∈ (cal.foldl (fun allPoints s =>
        match intervals s.id with
        | some (some sa, some ea) =>
            allPoints ++ s.dataPoints.filter (fun p =>
              match ageToNum toNum (p Field.age) with
              | some a => decide (min sa ea ≤ a ∧ a ≤ max sa ea)
              | none => false)
        | _ => allPoints) []) ↔
      (∃ s, s ∈ cal ∧ p ∈ s.dataPoints ∧
        ∃ sa ea a : ℚ, intervals s.id = some (some sa, some ea) ∧
          ageToNum toNum (p Field.age) = some a ∧
          min sa ea ≤ a ∧ a ≤ max sa ea) := by
    intro p
    have hstep : (cal.foldl (fun allPoints s =>
        match intervals s.id with
        | some (some sa, some ea) =>
            allPoints ++ s.dataPoints.filter (fun p =>
              match ageToNum toNum (p Field.age) with
              | some a => decide (min sa ea ≤ a ∧ a ≤ max sa ea)
              | none => false)
        | _ => allPoints) []) =
        cal.foldl (fun allPoints s => allPoints ++
          (match intervals s.id with
          | some (some sa, some ea) =>
              s.dataPoints.filter (fun p =>
                match ageToNum toNum (p Field.age) with
                | some a => decide (min sa ea ≤ a ∧ a ≤ max sa ea)
                | none => false)
          | _ => [])) [] := by
      congr 1
      funext allPoints s
      rcases intervals s.id with _ | ⟨sa, ea⟩
      · simp
      · rcases sa with _ | sa
        · simp
        · rcases ea with _ | ea
          · simp
          · simp
    rw [hstep, foldl_append_flatMap, List.nil_append, List.mem_flatMap]
    constructor
    · rintro ⟨s, hs, hp⟩
      refine ⟨s, hs, ?_⟩
      rcases hi : intervals s.id with _ | ⟨sa, ea⟩
      · rw [hi] at hp
        exact absurd hp (List.not_mem_nil p)
      · rcases sa with _ | sa
        · rw [hi] at hp
          exact absurd hp (List.not_mem_nil p)
        · rcases ea with _ | ea
          · rw [hi] at hp
            exact absurd hp (List.not_mem_nil p)
          · rw [hi] at hp
            rcases List.mem_filter.mp hp with ⟨hpd, hcond⟩
            rcases hta : ageToNum toNum (p Field.age) with _ | a
            · rw [hta] at hcond
              exact absurd hcond (by simp)
            · rw [hta] at hcond
              exact ⟨hpd, sa, ea, a, rfl, rfl, of_decide_eq_true hcond⟩
    · rintro ⟨s, hs, hpd, sa, ea, a, hi, ha, h1, h2⟩
      refine ⟨s, hs, ?_⟩
      rw [hi]
      refine List.mem_filter.mpr ⟨hpd, ?_⟩
      rw [ha]
      exact decide_eq_true ⟨h1, h2⟩
  constructor
  · intro p
    unfold compositeSplice
    rw [(List.perm_insertionSort (ageLE toNum) _).mem_iff]
    exact hmem p
  · unfold compositeSplice
    refine pairwise_insertionSort_optLE (ageKey toNum) (ageLE toNum)
      (fun a b => Iff.rfl) _ ?_
    intro p hp
    rcases (hmem p).mp hp with ⟨s, hs, hpd, sa, ea, a, hi, ha, h1, h2⟩
    exact ageKey_isSome_of_ageToNum toNum p a ha

theorem genKey_head (t i : ℕ) : (genKey t i).data.head? = some 'I' := by
  have h1 : ("Imported-" : String).data = 'I' :: "mported-".data := by decide
  simp [genKey, String.data_append, h1]

def toNumW : String → Option ℚ := fun _ => none

def pC3 : DataPoint :=
  Function.update
    (Function.update emptyPoint Field.subsection (some (JSVal.str "A")))
    Field.depth (some (JSVal.num 2))

def rC3 : DataPoint :=
  Function.update emptyPoint Field.depth (some (JSVal.num 1))

theorem C3_witness :
    (handleConfirmMappingMerge toNumW 0 [pC3] [rC3]).Pairwise (depthLE toNumW) ∧
    List.Perm (handleConfirmMappingMerge toNumW 0 [pC3] [rC3])
      (([pC3].map (fun p =>
          ([rC3].filter (rowMatches p)).foldl shallowMerge p))
       ++ ((([rC3].filterMap usableKey).dedup.filter (fun s =>
             [pC3].all (fun p =>
               decide (p Field.subsection ≠ some (JSVal.str s))))).map
           (fun s => ([rC3].filter (fun r =>
               decide (usableKey r = some s))).foldl shallowMerge emptyPoint))
       ++ [rC3].enum.filterMap (fun ir =>
           if usableKey ir.2 = none then
             some (Function.update ir.2 Field.subsection
               (some (JSVal.str (genKey 0 ir.1))))
           else none)) :=
  C3_reconciler toNumW 0 [pC3] [rC3]
    (by simp)
    (by
      intro r hr i hcon
      rw [List.mem_singleton.mp hr] at hcon
      have hu : usableKey rC3 = none := rfl
      rw [hu] at hcon
      exact Option.noConfusion hcon)
    (by
      intro p hp i hcon
      rw [List.mem_singleton.mp hp] at hcon
      have hps : pC3 Field.subsection = some (JSVal.str "A") := rfl
      rw [hps] at hcon
      have h2 : "A" = genKey 0 i := by
        have h3 := Option.some_inj.mp hcon
        injection h3
      have h4 : "A".data.head? = (genKey 0 i).data.head? :=
        congrArg (fun s : String => s.data.head?) h2
      rw [genKey_head 0 i] at h4
      exact absurd h4 (by decide))
    (by
      intro p hp
      rcases hp with hp | hp
      · rw [List.mem_singleton.mp hp]
        rfl
      · rw [List.mem_singleton.mp hp]
        rfl)

theorem C6_witness :
    (∀ i j : ℕ, i ≠ j → genKey 0 i ≠ genKey 0 j) ∧
    (∀ ir ∈ ([] : List DataPoint).enum, usableKey ir.2 = none →
      Function.update ir.2 Field.subsection (some (JSVal.str (genKey 0 ir.1)))
        ∈ handleConfirmMappingMerge (fun _ => none) 0 [] []) ∧
    (∀ ir ∈ ([] : List DataPoint).enum,
      ∃ p ∈ handleConfirmMappingMerge (fun _ => none) 0 [] [],
        p Field.subsection = effKey 0 ir) :=
  C6_unkeyed_rows (fun _ => none) 0 [] []
    (fun r hr => absurd hr (List.not_mem_nil r))

theorem C7_witness :
    handleAddDataPoint (fun _ => none) (fun _ => none) (fun _ => "x")
      ⟨"sec1", [], fun _ => none⟩ = none :=
  C7_manual_entry_rejection (fun _ => none) (fun _ => none) (fun _ => "x")
    ⟨"sec1", [], fun _ => none⟩
    (Or.inr (fun _ _ _ _ => rfl))

end PaleoCore
